import Mathlib

/-! Shallow embedding of the mindmap core from `src/api/services/mindmaps.ts`:
the indentation parser `parseTextToTree`, the serializer `treeToText`, the
layout engine `calculateLayout` and the geometry utilities
(`flattenPositions`, `getBoundingBox`, `countNodes`).

Modelling conventions.  JavaScript strings are modelled as lists of
characters (`JStr`).  The JavaScript numbers appearing in the layout engine
are modelled as rationals (`ℚ`): the layout code only adds, subtracts and
halves values built from small integer constants, and these operations are
exact on IEEE doubles in the range produced, so `ℚ` is a faithful model.
The identifier generator `generateId` (timestamp + randomness in the source)
is modelled as an opaque fresh counter threaded through a parse; identifiers
are opaque and no modelled operation inspects them.  The stateful child
mutation (`parent.children.push(newNode)`) is modelled by attaching a node to
its parent at the moment its stack entry is popped (or when the stack is
finally collapsed), which produces the same finished tree. -/

abbrev JStr := List Char

/-- Whitespace test modelling the characters relevant to the source's
`trim()` and its leading-whitespace regex `/^(\s*)/` (ASCII space, tab,
carriage return, line feed). -/
def isWs (c : Char) : Bool :=
  c = ' ' || c = '\t' || c = '\r' || c = '\n'

/-- Model of `text.split('\n')`. -/
def splitLines : JStr → List JStr
  | [] => [[]]
  | c :: cs =>
    if c = '\n' then
      [] :: splitLines cs
    else
      match splitLines cs with
      | [] => [[c]]
      | l :: ls => (c :: l) :: ls

/-- Leading-whitespace removal (first half of `line.trim()`). -/
def ltrim (s : JStr) : JStr := s.dropWhile isWs

/-- Trailing-whitespace removal (second half of `line.trim()`). -/
def rtrim (s : JStr) : JStr := (s.reverse.dropWhile isWs).reverse

/-- Model of `line.trim()`. -/
def trim (s : JStr) : JStr := rtrim (ltrim s)

/-- Model of the leading-whitespace count `line.match(/^(\s*)/)[1].length`. -/
def leadingSpaces (s : JStr) : Nat := (s.takeWhile isWs).length

/-- The parser-internal `ParsedLine` record. -/
structure ParsedLine where
  text : JStr
  level : Nat
  lineNumber : Nat

/-- The surviving lines of the input, as produced by the `lines.forEach` loop
of `parseTextToTree`: blank lines are skipped, every survivor records its
trimmed text, its level `floor(leadingSpaces / 2)` and its 1-based line
number. -/
def parsedLinesOf (text : JStr) : List ParsedLine :=
  (splitLines text).enum.filterMap fun il =>
    if trim il.2 = [] then none
    else some (ParsedLine.mk (trim il.2) (leadingSpaces il.2 / 2) (il.1 + 1))

/-- The `MindmapNode` tree of the schema (`{id, text, children}`).  The
source's optional `collapsed` presentation flag is never read or written by
any of the modelled operations and is omitted.  `id` is the value drawn from
the fresh-identifier supply. -/
inductive MindmapNode where
  | mk (id : Nat) (text : JStr) (children : List MindmapNode)

def MindmapNode.id : MindmapNode → Nat
  | .mk i _ _ => i

def MindmapNode.text : MindmapNode → JStr
  | .mk _ t _ => t

def MindmapNode.children : MindmapNode → List MindmapNode
  | .mk _ _ cs => cs

/-- One entry of the ancestor stack of `parseTextToTree`.  The source keeps
`{node, level}` pairs and mutates `node.children` in place; the embedding
keeps the node's fields together with the children accumulated so far. -/
structure BuildEntry where
  id : Nat
  text : JStr
  level : Nat
  children : List MindmapNode

/-- The finished node of a stack entry. -/
def closeEntry (e : BuildEntry) : MindmapNode :=
  MindmapNode.mk e.id e.text e.children

/-- Append a finished node as the last child of a `BuildEntry` (the shape of
every attach performed while popping). -/
def addChild (e : BuildEntry) (m : MindmapNode) : BuildEntry :=
  BuildEntry.mk e.id e.text e.level (e.children ++ [m])

/-- Loop body of
`while (stack.length > 1 && stack[stack.length - 1].level >= level) stack.pop()`,
with the current top entry held separately from the remainder of the stack;
each popped entry's finished node becomes the last child of the entry
directly below it (the attach deferred from the source's in-place
`parent.children.push`). -/
def popGo (level : Nat) : BuildEntry → List BuildEntry → List BuildEntry
  | e, [] => [e]
  | e, e2 :: rest =>
    if level ≤ e.level then popGo level (addChild e2 (closeEntry e)) rest
    else e :: e2 :: rest

/-- The pop loop on a whole stack. -/
def popPhase (level : Nat) (st : List BuildEntry) : List BuildEntry :=
  match st with
  | [] => []
  | e :: rest => popGo level e rest

/-- Processing one surviving line in the `for` loop of `parseTextToTree`:
pop to the parent, then push the new node (fresh id `nid`) with its level. -/
def insertLine (st : List BuildEntry) (pl : ParsedLine) (nid : Nat) : List BuildEntry :=
  BuildEntry.mk nid pl.text pl.level [] :: popPhase pl.level st

/-- Fold a popped chain of entries into a single finished node: the first
entry closes into the second, the result into the third, and so on. -/
def chainClose : BuildEntry → List BuildEntry → MindmapNode
  | e, [] => closeEntry e
  | e, e2 :: rest => chainClose (addChild e2 (closeEntry e)) rest

/-- Closing every entry still open when the loop ends; the bottom entry is
the root object that the source returns (the fold is the same attach chain
as `chainClose`). -/
def collapseStack : List BuildEntry → MindmapNode
  | [] => MindmapNode.mk 0 [] []
  | e :: rest => chainClose e rest

/-- `parseTextToTree(text)`: split into lines, keep the surviving lines,
return the fixed placeholder when none survives, otherwise build the tree
with the ancestor stack.  The first surviving line becomes the root; fresh
identifiers 0, 1, 2, … are drawn in line order. -/
def parseTextToTree (text : JStr) : MindmapNode :=
  match parsedLinesOf text with
  | [] => MindmapNode.mk 0 ("Empty Mindmap".data) []
  | p0 :: rest =>
    collapseStack
      ((rest.enum).foldl (fun st ip => insertLine st ip.2 (ip.1 + 1))
        [BuildEntry.mk 0 p0.text p0.level []])

mutual
/-- Character stream of `treeToText(node, level)`: `2 * level` spaces, the
node's text, then (if there are children) a newline and the children's texts
joined by newlines at `level + 1`. -/
def ttChars : MindmapNode → Nat → JStr
  | .mk _ text [], level => List.replicate (2 * level) ' ' ++ text
  | .mk _ text (c :: cs), level =>
    (List.replicate (2 * level) ' ' ++ text) ++ ('\n' :: ttList (c :: cs) (level + 1))
/-- `childTexts.join('\n')` (the empty case never arises in `ttChars`). -/
def ttList : List MindmapNode → Nat → JStr
  | [], _ => []
  | [c], level => ttChars c level
  | c :: c2 :: cs, level => ttChars c level ++ ('\n' :: ttList (c2 :: cs) level)
end

/-- `treeToText(node, level = 0)`. -/
def treeToText (node : MindmapNode) (level : Nat := 0) : JStr :=
  ttChars node level

def NODE_HEIGHT : ℚ := 40
def NODE_PADDING : ℚ := 20
def LEVEL_GAP : ℚ := 150
def SIBLING_GAP : ℚ := 20

/-- The `NodePosition` tree produced by the layout engine. -/
inductive NodePosition where
  | mk (node : MindmapNode) (x y width height : ℚ) (children : List NodePosition)

def NodePosition.node : NodePosition → MindmapNode
  | .mk n _ _ _ _ _ => n

def NodePosition.x : NodePosition → ℚ
  | .mk _ x _ _ _ _ => x

def NodePosition.y : NodePosition → ℚ
  | .mk _ _ y _ _ _ => y

def NodePosition.width : NodePosition → ℚ
  | .mk _ _ _ w _ _ => w

def NodePosition.height : NodePosition → ℚ
  | .mk _ _ _ _ h _ => h

def NodePosition.children : NodePosition → List NodePosition
  | .mk _ _ _ _ _ cs => cs

mutual
/-- `getSubtreeHeight(pos)`: own height for a leaf, otherwise the vertical
extent from the position's own top to the bottom of its last child. -/
def getSubtreeHeight : NodePosition → ℚ
  | .mk _ _ _ _ height [] => height
  | .mk _ _ y _ _ (c :: cs) => lastBottomL (c :: cs) - y
/-- `lastChild.y + getSubtreeHeight(lastChild)` over the child list (the
source indexes `children[children.length - 1]`; the empty case never arises). -/
def lastBottomL : List NodePosition → ℚ
  | [] => 0
  | [c] => c.y + getSubtreeHeight c
  | _ :: c2 :: cs => lastBottomL (c2 :: cs)
end

mutual
/-- `layoutNode(node, x, startY)`. -/
def layoutNode : MindmapNode → ℚ → ℚ → NodePosition
  | .mk i t cs, x, startY =>
    let width := max 100 ((t.length : ℚ) * 8 + NODE_PADDING * 2)
    let childPositions := layoutChildren cs (x + LEVEL_GAP) startY
    let y :=
      match childPositions with
      | [] => startY
      | c0 :: cs2 => (c0.y + lastBottomL (c0 :: cs2)) / 2 - NODE_HEIGHT / 2
    NodePosition.mk (MindmapNode.mk i t cs) x y width NODE_HEIGHT childPositions
/-- The `for (const child of node.children)` loop: each child laid out at
`x` (already shifted by `LEVEL_GAP`), the cursor advanced past each child's
subtree height plus `SIBLING_GAP`. -/
def layoutChildren : List MindmapNode → ℚ → ℚ → List NodePosition
  | [], _, _ => []
  | c :: cs, x, currentY =>
    let childPos := layoutNode c x currentY
    childPos :: layoutChildren cs x (childPos.y + getSubtreeHeight childPos + SIBLING_GAP)
end

/-- `calculateLayout(node)`. -/
def calculateLayout (node : MindmapNode) : NodePosition :=
  layoutNode node 0 0

mutual
/-- `flattenPositions(root)`: pre-order flattening of the position tree. -/
def flattenPositions : NodePosition → List NodePosition
  | .mk n x y w h cs => NodePosition.mk n x y w h cs :: flattenList cs
def flattenList : List NodePosition → List NodePosition
  | [] => []
  | p :: ps => flattenPositions p ++ flattenList ps
end

/-- The record returned by `getBoundingBox`. -/
structure BoundingBox where
  minX : ℚ
  minY : ℚ
  maxX : ℚ
  maxY : ℚ
  width : ℚ
  height : ℚ

/-- Running minimum of the `Math.min` fold; `none` models the `Infinity`
start value (`Math.min(Infinity, v) = v`). -/
def minAcc (m : Option ℚ) (v : ℚ) : Option ℚ :=
  match m with
  | none => some v
  | some a => some (min a v)

/-- Running maximum of the `Math.max` fold; `none` models `-Infinity`. -/
def maxAcc (m : Option ℚ) (v : ℚ) : Option ℚ :=
  match m with
  | none => some v
  | some a => some (max a v)

/-- `getBoundingBox(root)`.  `flattenPositions` always yields at least the
root, so every accumulator is `some` at the end of its fold and the `getD 0`
default is never used. -/
def getBoundingBox (root : NodePosition) : BoundingBox :=
  let positions := flattenPositions root
  let minX := (positions.foldl (fun m p => minAcc m p.x) none).getD 0
  let minY := (positions.foldl (fun m p => minAcc m p.y) none).getD 0
  let maxX := (positions.foldl (fun m p => maxAcc m (p.x + p.width)) none).getD 0
  let maxY := (positions.foldl (fun m p => maxAcc m (p.y + p.height)) none).getD 0
  BoundingBox.mk minX minY maxX maxY (maxX - minX) (maxY - minY)

mutual
/-- `countNodes(node)`. -/
def countNodes : MindmapNode → Nat
  | .mk _ _ cs => 1 + countList cs
def countList : List MindmapNode → Nat
  | [] => 0
  | c :: cs => countNodes c + countList cs
end

mutual
/-- Pre-order list of all nodes of a `MindmapNode` tree (specification
helper used to state per-node invariants). -/
def allNodes : MindmapNode → List MindmapNode
  | .mk i t cs => MindmapNode.mk i t cs :: allNodesList cs
def allNodesList : List MindmapNode → List MindmapNode
  | [] => []
  | c :: cs => allNodes c ++ allNodesList cs
end

mutual
/-- Pre-order flattening of a position tree paired with edge-depths
(specification helper). -/
def flattenDepth : NodePosition → Nat → List (NodePosition × Nat)
  | .mk n x y w h cs, d => (NodePosition.mk n x y w h cs, d) :: flattenDepthList cs (d + 1)
def flattenDepthList : List NodePosition → Nat → List (NodePosition × Nat)
  | [], _ => []
  | p :: ps, d => flattenDepth p d ++ flattenDepthList ps d
end

/-- A parser-produced text: non-empty, fully trimmed, free of line breaks. -/
def goodText (s : JStr) : Prop :=
  s ≠ [] ∧ trim s = s ∧ '\n' ∉ s

/-- Every node text of the tree is a `goodText`. -/
def goodM (m : MindmapNode) : Prop :=
  ∀ q ∈ allNodes m, goodText q.text

mutual
/-- The position tree mirrors the node tree: same node at the root, children
in the same order, one position per node (specification helper). -/
def mirrors : NodePosition → MindmapNode → Prop
  | .mk n _ _ _ _ pcs, m => n = m ∧ mirrorsList pcs m.children
def mirrorsList : List NodePosition → List MindmapNode → Prop
  | [], [] => True
  | p :: ps, c :: cs => mirrors p c ∧ mirrorsList ps cs
  | _, _ => False
end

/-- Identifier-erased node trees: the shape-and-text content of a
`MindmapNode`, used to state properties `up to regenerated identifiers`. -/
inductive STree where
  | mk (text : JStr) (children : List STree)

def STree.text : STree → JStr
  | .mk t _ => t

def STree.children : STree → List STree
  | .mk _ cs => cs

mutual
/-- Erase the identifiers of a tree. -/
def stripIds : MindmapNode → STree
  | .mk _ t cs => STree.mk t (stripList cs)
def stripList : List MindmapNode → List STree
  | [] => []
  | c :: cs => stripIds c :: stripList cs
end

/-- Identifier-erased image of a stack entry. -/
structure SEntry where
  text : JStr
  level : Nat
  children : List STree

def stripE (e : BuildEntry) : SEntry :=
  SEntry.mk e.text e.level (stripList e.children)

def closeS (e : SEntry) : STree :=
  STree.mk e.text e.children

/-- Append a finished subtree as the last child of a stack entry. -/
def addKidS (e : SEntry) (u : STree) : SEntry :=
  SEntry.mk e.text e.level (e.children ++ [u])

/-- Identifier-erased image of `popGo`. -/
def popGoS (level : Nat) : SEntry → List SEntry → List SEntry
  | e, [] => [e]
  | e, e2 :: rest =>
    if level ≤ e.level then popGoS level (addKidS e2 (closeS e)) rest
    else e :: e2 :: rest

/-- Identifier-erased image of `popPhase`. -/
def popPhaseS (level : Nat) (st : List SEntry) : List SEntry :=
  match st with
  | [] => []
  | e :: rest => popGoS level e rest

/-- Identifier-erased image of `insertLine`. -/
def insertS (st : List SEntry) (tl : JStr × Nat) : List SEntry :=
  SEntry.mk tl.1 tl.2 [] :: popPhaseS tl.2 st

/-- Identifier-erased image of the parse loop over a list of
(text, level) pairs. -/
def runS (st : List SEntry) (tls : List (JStr × Nat)) : List SEntry :=
  tls.foldl insertS st

/-- Identifier-erased image of `chainClose`. -/
def chainCloseS : SEntry → List SEntry → STree
  | e, [] => closeS e
  | e, e2 :: rest => chainCloseS (addKidS e2 (closeS e)) rest

/-- Identifier-erased image of `collapseStack`. -/
def collapseS : List SEntry → STree
  | [] => STree.mk [] []
  | e :: rest => chainCloseS e rest

mutual
/-- The (text, level) pairs of the pre-order traversal of an identifier-erased
tree rooted at depth `d` (exactly the line list its serialization parses
back to). -/
def preTL : STree → Nat → List (JStr × Nat)
  | .mk t cs, d => (t, d) :: preTLs cs (d + 1)
def preTLs : List STree → Nat → List (JStr × Nat)
  | [], _ => []
  | c :: cs, d => preTL c d ++ preTLs cs d
end

mutual
/-- The stack left open after the parse loop has consumed the pre-order
line list of a subtree rooted at depth `d`: the rightmost path of the tree,
deepest entry on top, every entry holding its already-finished children. -/
def spineStack : STree → Nat → List SEntry
  | .mk t [], d => [SEntry.mk t d []]
  | .mk t (c :: cs), d =>
    spineL (c :: cs) (d + 1) ++ [SEntry.mk t d (List.dropLast (c :: cs))]
/-- Spine of the last element of a child list (the empty case never arises). -/
def spineL : List STree → Nat → List SEntry
  | [], _ => []
  | [c], d => spineStack c d
  | _ :: c2 :: cs, d => spineL (c2 :: cs) d
end

/-- Projection of a `ParsedLine` to the data the tree builder consumes. -/
def projPL (pl : ParsedLine) : JStr × Nat :=
  (pl.text, pl.level)

/-- The (text, level) pair a raw line contributes, if it survives. -/
def lineTL (l : JStr) : Option (JStr × Nat) :=
  if trim l = [] then none
  else some (trim l, leadingSpaces l / 2)

/-- Total number of nodes held by a stack: each entry contributes itself and
the nodes of its accumulated children (proof helper for the counting
invariant of the parse loop). -/
def stackCount (st : List BuildEntry) : Nat :=
  (st.map (fun e => 1 + countList e.children)).sum

/-- A throwaway position, used only as the default of `List.getD` when
naming a child position at a concrete index in concrete statements. -/
def dummyPos : NodePosition :=
  NodePosition.mk (MindmapNode.mk 0 [] []) 0 0 0 0 []

/-! Theorems.  First, induction helpers for the nested inductive types and
strong induction on list length. -/

theorem listLenInd {α : Type} (P : List α → Prop)
    (step : ∀ l, (∀ l2 : List α, l2.length < l.length → P l2) → P l) : ∀ l, P l := by
  have key : ∀ (k : Nat) (l : List α), l.length ≤ k → P l := by
    intro k
    induction k with
    | zero =>
      intro l h
      apply step
      intro l2 h2
      omega
    | succ k ih =>
      intro l _
      apply step
      intro l2 h2
      apply ih
      omega
  intro l
  exact key l.length l (Nat.le_refl _)

theorem mnInd (P : MindmapNode → Prop)
    (step : ∀ i t cs, (∀ c ∈ cs, P c) → P (MindmapNode.mk i t cs)) : ∀ n, P n := by
  have key : ∀ (k : Nat) (n : MindmapNode), sizeOf n ≤ k → P n := by
    intro k
    induction k with
    | zero =>
      intro n h
      cases n with
      | mk i t cs => simp at h
    | succ k ih =>
      intro n h
      cases n with
      | mk i t cs =>
        apply step
        intro c hc
        apply ih
        have h1 := List.sizeOf_lt_of_mem hc
        have h2 : sizeOf (MindmapNode.mk i t cs) = 1 + sizeOf i + sizeOf t + sizeOf cs := by
          simp
        omega
  intro n
  exact key (sizeOf n) n (Nat.le_refl _)

theorem stInd (P : STree → Prop)
    (step : ∀ t cs, (∀ c ∈ cs, P c) → P (STree.mk t cs)) : ∀ u, P u := by
  have key : ∀ (k : Nat) (u : STree), sizeOf u ≤ k → P u := by
    intro k
    induction k with
    | zero =>
      intro u h
      cases u with
      | mk t cs => simp at h
    | succ k ih =>
      intro u h
      cases u with
      | mk t cs =>
        apply step
        intro c hc
        apply ih
        have h1 := List.sizeOf_lt_of_mem hc
        have h2 : sizeOf (STree.mk t cs) = 1 + sizeOf t + sizeOf cs := by simp
        omega
  intro u
  exact key (sizeOf u) u (Nat.le_refl _)

theorem npInd (P : NodePosition → Prop)
    (step : ∀ n x y w h cs, (∀ c ∈ cs, P c) → P (NodePosition.mk n x y w h cs)) :
    ∀ p, P p := by
  have key : ∀ (k : Nat) (p : NodePosition), sizeOf p ≤ k → P p := by
    intro k
    induction k with
    | zero =>
      intro p h
      cases p with
      | mk n x y w hh cs => simp at h
    | succ k ih =>
      intro p h
      cases p with
      | mk n x y w hh cs =>
        apply step
        intro c hc
        apply ih
        have h1 := List.sizeOf_lt_of_mem hc
        have h2 : sizeOf (NodePosition.mk n x y w hh cs) =
            1 + sizeOf n + sizeOf x + sizeOf y + sizeOf w + sizeOf hh + sizeOf cs := by
          simp
        omega
  intro p
  exact key (sizeOf p) p (Nat.le_refl _)

/-! Projection simp lemmas. -/

@[simp] theorem MindmapNode.id_mk (i : Nat) (t : JStr) (cs : List MindmapNode) :
    (MindmapNode.mk i t cs).id = i := rfl

@[simp] theorem MindmapNode.text_mk (i : Nat) (t : JStr) (cs : List MindmapNode) :
    (MindmapNode.mk i t cs).text = t := rfl

@[simp] theorem MindmapNode.children_mk (i : Nat) (t : JStr) (cs : List MindmapNode) :
    (MindmapNode.mk i t cs).children = cs := rfl

@[simp] theorem NodePosition.node_mk (n : MindmapNode) (x y w h : ℚ) (cs : List NodePosition) :
    (NodePosition.mk n x y w h cs).node = n := rfl

@[simp] theorem NodePosition.x_mk (n : MindmapNode) (x y w h : ℚ) (cs : List NodePosition) :
    (NodePosition.mk n x y w h cs).x = x := rfl

@[simp] theorem NodePosition.y_mk (n : MindmapNode) (x y w h : ℚ) (cs : List NodePosition) :
    (NodePosition.mk n x y w h cs).y = y := rfl

@[simp] theorem NodePosition.width_mk (n : MindmapNode) (x y w h : ℚ) (cs : List NodePosition) :
    (NodePosition.mk n x y w h cs).width = w := rfl

@[simp] theorem NodePosition.height_mk (n : MindmapNode) (x y w h : ℚ) (cs : List NodePosition) :
    (NodePosition.mk n x y w h cs).height = h := rfl

@[simp] theorem NodePosition.pchildren_mk (n : MindmapNode) (x y w h : ℚ) (cs : List NodePosition) :
    (NodePosition.mk n x y w h cs).children = cs := rfl

@[simp] theorem STree.stext_mk (t : JStr) (cs : List STree) : (STree.mk t cs).text = t := rfl

@[simp] theorem STree.schildren_mk (t : JStr) (cs : List STree) :
    (STree.mk t cs).children = cs := rfl

/-! Lemmas about `splitLines`. -/

theorem splitLines_ne_nil (s : JStr) : splitLines s ≠ [] := by
  induction s with
  | nil => simp [splitLines]
  | cons c cs ih =>
    simp only [splitLines]
    by_cases hc : c = '\n'
    · simp [hc]
    · simp only [if_neg hc]
      rcases h : splitLines cs with _ | ⟨l, ls⟩
      · simp
      · simp

theorem splitLines_cons_nl (cs : JStr) : splitLines ('\n' :: cs) = [] :: splitLines cs := by
  simp [splitLines]

theorem splitLines_cons_other (c : Char) (cs : JStr) (hc : c ≠ '\n') (l : JStr)
    (ls : List JStr) (h : splitLines cs = l :: ls) :
    splitLines (c :: cs) = (c :: l) :: ls := by
  simp only [splitLines, if_neg hc, h]

theorem splitLines_append (a b : JStr) :
    splitLines (a ++ '\n' :: b) = splitLines a ++ splitLines b := by
  induction a with
  | nil =>
    simp only [List.nil_append]
    rw [splitLines_cons_nl]
    rfl
  | cons c cs ih =>
    by_cases hc : c = '\n'
    · subst hc
      rw [List.cons_append, splitLines_cons_nl, splitLines_cons_nl, ih]
      rfl
    · rcases h : splitLines cs with _ | ⟨l, ls⟩
      · exact absurd h (splitLines_ne_nil cs)
      · have h2 : splitLines (cs ++ '\n' :: b) = l :: (ls ++ splitLines b) := by
          rw [ih, h]
          rfl
        rw [List.cons_append, splitLines_cons_other c _ hc _ _ h2,
          splitLines_cons_other c _ hc _ _ h]
        rfl

theorem splitLines_no_nl (s : JStr) : ∀ l ∈ splitLines s, '\n' ∉ l := by
  induction s with
  | nil =>
    intro l hl hn
    simp [splitLines] at hl
    subst hl
    simp at hn
  | cons c cs ih =>
    intro l hl hn
    by_cases hc : c = '\n'
    · subst hc
      rw [splitLines_cons_nl] at hl
      rcases List.mem_cons.mp hl with h1 | h1
      · subst h1
        simp at hn
      · exact ih l h1 hn
    · rcases h : splitLines cs with _ | ⟨l0, ls⟩
      · exact absurd h (splitLines_ne_nil cs)
      · rw [splitLines_cons_other c _ hc _ _ h] at hl
        rcases List.mem_cons.mp hl with h1 | h1
        · subst h1
          rcases List.mem_cons.mp hn with h2 | h2
          · exact hc h2.symm
          · exact ih l0 (by simp [h]) h2
        · exact ih l (by simp [h, h1]) hn

theorem splitLines_of_no_nl (s : JStr) (h : '\n' ∉ s) : splitLines s = [s] := by
  induction s with
  | nil => simp [splitLines]
  | cons c cs ih =>
    have hc : c ≠ '\n' := by
      intro hx
      exact h (by simp [hx])
    have hcs : '\n' ∉ cs := by
      intro hx
      exact h (by simp [hx])
    exact splitLines_cons_other c cs hc cs [] (ih hcs)

/-! Lemmas about `trim` and `leadingSpaces`. -/

theorem dropWhile_head_false {p : Char → Bool} {l t : JStr} {c : Char}
    (h : l.dropWhile p = c :: t) : p c = false := by
  induction l with
  | nil => simp at h
  | cons a l ih =>
    rw [List.dropWhile_cons] at h
    by_cases hp : p a = true
    · rw [if_pos hp] at h
      exact ih h
    · rw [if_neg hp] at h
      injection h with h1 h2
      subst h1
      simpa using hp

theorem rtrim_pref (s : JStr) : rtrim s <+: s := by
  have h := List.dropWhile_suffix (l := s.reverse) isWs
  have h2 := List.reverse_prefix.mpr h
  simpa [rtrim] using h2

theorem ltrim_eq_self_of_trim (s : JStr) (h : trim s = s) : ltrim s = s := by
  have hsuf : ltrim s <:+ s := List.dropWhile_suffix isWs
  apply hsuf.eq_of_length
  have h1 : (ltrim s).length ≤ s.length := hsuf.length_le
  have h2 : (trim s).length ≤ (ltrim s).length := by
    have h3 : (ltrim s).reverse.dropWhile isWs <:+ (ltrim s).reverse :=
      List.dropWhile_suffix isWs
    have h4 := h3.length_le
    simp only [trim, rtrim, List.length_reverse]
    simpa using h4
  have h3 : (trim s).length = s.length := by rw [h]
  omega

theorem rtrim_eq_self_of_trim (s : JStr) (h : trim s = s) : rtrim s = s := by
  have hl := ltrim_eq_self_of_trim s h
  unfold trim at h
  rw [hl] at h
  exact h

theorem head_not_ws_of_trim (c : Char) (t : JStr) (h : trim (c :: t) = c :: t) :
    isWs c = false := by
  have hl := ltrim_eq_self_of_trim _ h
  exact dropWhile_head_false hl

theorem dropWhile_ws_replicate (n : Nat) (s : JStr) :
    (List.replicate n ' ' ++ s).dropWhile isWs = s.dropWhile isWs := by
  induction n with
  | zero => simp
  | succ n ih =>
    rw [List.replicate_succ, List.cons_append, List.dropWhile_cons]
    simp only [show isWs ' ' = true from rfl, if_pos]
    exact ih

theorem takeWhile_ws_replicate (n : Nat) (s : JStr) :
    (List.replicate n ' ' ++ s).takeWhile isWs = List.replicate n ' ' ++ s.takeWhile isWs := by
  induction n with
  | zero => simp
  | succ n ih =>
    rw [List.replicate_succ, List.cons_append, List.takeWhile_cons]
    simp only [show isWs ' ' = true from rfl, if_pos]
    rw [ih]
    simp

theorem trim_indent (n : Nat) (s : JStr) (hs : trim s = s) (hne : s ≠ []) :
    trim (List.replicate n ' ' ++ s) = s := by
  rcases s with _ | ⟨c, t⟩
  · exact absurd rfl hne
  have hhead := head_not_ws_of_trim c t hs
  show rtrim (ltrim (List.replicate n ' ' ++ c :: t)) = c :: t
  unfold ltrim
  rw [dropWhile_ws_replicate, List.dropWhile_cons, if_neg (by simp [hhead])]
  exact rtrim_eq_self_of_trim _ hs

theorem leading_indent (n : Nat) (s : JStr) (hs : trim s = s) (hne : s ≠ []) :
    leadingSpaces (List.replicate n ' ' ++ s) = n := by
  rcases s with _ | ⟨c, t⟩
  · exact absurd rfl hne
  have hhead := head_not_ws_of_trim c t hs
  unfold leadingSpaces
  rw [takeWhile_ws_replicate, List.takeWhile_cons, if_neg (by simp [hhead])]
  simp

theorem dropWhile_idem (p : Char → Bool) (l : JStr) :
    (l.dropWhile p).dropWhile p = l.dropWhile p := by
  rcases h : l.dropWhile p with _ | ⟨c, t⟩
  · simp
  · have hc := dropWhile_head_false h
    rw [List.dropWhile_cons, if_neg (by simp [hc])]

theorem rtrim_idem (s : JStr) : rtrim (rtrim s) = rtrim s := by
  unfold rtrim
  rw [List.reverse_reverse, dropWhile_idem]

theorem trim_idem (s : JStr) : trim (trim s) = trim s := by
  rcases h : trim s with _ | ⟨c, t⟩
  · rfl
  · have hpre : trim s <+: ltrim s := rtrim_pref (ltrim s)
    obtain ⟨r, hr⟩ := hpre
    rw [h] at hr
    have hltr : ltrim s = c :: (t ++ r) := by
      rw [← hr]
      rfl
    have hcf : isWs c = false := dropWhile_head_false (p := isWs) (l := s) hltr
    have hlt : ltrim (trim s) = trim s := by
      rw [h]
      unfold ltrim
      rw [List.dropWhile_cons, if_neg (by simp [hcf])]
    calc trim (c :: t) = trim (trim s) := by rw [h]
      _ = rtrim (ltrim (trim s)) := rfl
      _ = rtrim (trim s) := by rw [hlt]
      _ = rtrim (rtrim (ltrim s)) := rfl
      _ = rtrim (ltrim s) := rtrim_idem _
      _ = trim s := rfl
      _ = c :: t := h

theorem mem_trim (s : JStr) (a : Char) (h : a ∈ trim s) : a ∈ s := by
  have h1 : a ∈ ltrim s := (rtrim_pref (ltrim s)).subset h
  exact (List.dropWhile_suffix isWs).subset h1

/-! Unfolding lemmas for the stack machine. -/

theorem popPhase_nil (l : Nat) : popPhase l [] = [] := rfl

theorem popPhase_single (l : Nat) (e : BuildEntry) : popPhase l [e] = [e] := rfl

theorem popPhase_cons2 (l : Nat) (e e2 : BuildEntry) (rest : List BuildEntry) :
    popPhase l (e :: e2 :: rest) =
      if l ≤ e.level then popPhase l (addChild e2 (closeEntry e) :: rest)
      else e :: e2 :: rest := by
  by_cases h : l ≤ e.level
  · simp [popPhase, popGo, h]
  · simp [popPhase, popGo, h]

theorem collapseStack_single (e : BuildEntry) : collapseStack [e] = closeEntry e := rfl

theorem collapseStack_cons2 (e e2 : BuildEntry) (rest : List BuildEntry) :
    collapseStack (e :: e2 :: rest) = collapseStack (addChild e2 (closeEntry e) :: rest) := rfl

@[simp] theorem addChild_id (e : BuildEntry) (m : MindmapNode) : (addChild e m).id = e.id := rfl

@[simp] theorem addChild_text (e : BuildEntry) (m : MindmapNode) :
    (addChild e m).text = e.text := rfl

@[simp] theorem addChild_level (e : BuildEntry) (m : MindmapNode) :
    (addChild e m).level = e.level := rfl

@[simp] theorem addChild_children (e : BuildEntry) (m : MindmapNode) :
    (addChild e m).children = e.children ++ [m] := rfl

theorem popPhaseS_nil (l : Nat) : popPhaseS l [] = [] := rfl

theorem popPhaseS_single (l : Nat) (e : SEntry) : popPhaseS l [e] = [e] := rfl

theorem popPhaseS_cons2 (l : Nat) (e e2 : SEntry) (rest : List SEntry) :
    popPhaseS l (e :: e2 :: rest) =
      if l ≤ e.level then popPhaseS l (addKidS e2 (closeS e) :: rest)
      else e :: e2 :: rest := by
  by_cases h : l ≤ e.level
  · simp [popPhaseS, popGoS, h]
  · simp [popPhaseS, popGoS, h]

theorem collapseS_single (e : SEntry) : collapseS [e] = closeS e := rfl

theorem collapseS_cons2 (e e2 : SEntry) (rest : List SEntry) :
    collapseS (e :: e2 :: rest) = collapseS (addKidS e2 (closeS e) :: rest) := rfl

@[simp] theorem addKidS_text (e : SEntry) (u : STree) : (addKidS e u).text = e.text := rfl

@[simp] theorem addKidS_level (e : SEntry) (u : STree) : (addKidS e u).level = e.level := rfl

@[simp] theorem addKidS_children (e : SEntry) (u : STree) :
    (addKidS e u).children = e.children ++ [u] := rfl

/-- A pop never empties the stack. -/
theorem popPhase_ne_nil (l : Nat) (st : List BuildEntry) (h : st ≠ []) :
    popPhase l st ≠ [] := by
  induction st using listLenInd with
  | step st ih =>
    rcases st with _ | ⟨e, _ | ⟨e2, rest⟩⟩
    · exact absurd rfl h
    · rw [popPhase_single]
      exact h
    · rw [popPhase_cons2]
      by_cases hc : l ≤ e.level
      · rw [if_pos hc]
        exact ih _ (by simp) (by simp)
      · rw [if_neg hc]
        exact h

/-- Full characterization of `popPhase`: given a decomposition of the stack
into popped entries `tops` (all with level ≥ `l`), the stop entry `p` (with
level < `l`, or the root when `below = []`), the pops fold `tops` into a
single finished subtree attached as the last child of `p`. -/
theorem popPhase_eq (l : Nat) (below : List BuildEntry) :
    ∀ tops : List BuildEntry, ∀ p : BuildEntry,
      (∀ e ∈ tops, l ≤ e.level) → (p.level < l ∨ below = []) →
      popPhase l (tops ++ p :: below) =
        (match tops with
         | [] => p
         | t :: ts => addChild p (chainClose t ts)) :: below := by
  intro tops
  induction tops using listLenInd with
  | step tops ih =>
    intro p htops hstop
    rcases tops with _ | ⟨t, ts⟩
    · simp only [List.nil_append]
      rcases below with _ | ⟨b, bs⟩
      · exact popPhase_single l p
      · rcases hstop with hs | hs
        · rw [popPhase_cons2, if_neg (by omega)]
        · cases hs
    · have hcond : l ≤ t.level := htops t (by simp)
      rcases ts with _ | ⟨t2, ts2⟩
      · rw [List.cons_append, List.nil_append, popPhase_cons2, if_pos hcond]
        have hx := ih [] (by simp) (addChild p (closeEntry t)) (by simp)
          (by simpa using hstop)
        simp only [List.nil_append] at hx
        rw [hx]
        rfl
      · rw [List.cons_append, List.cons_append, popPhase_cons2, if_pos hcond]
        have hmem : ∀ e ∈ addChild t2 (closeEntry t) :: ts2, l ≤ e.level := by
          intro e he
          rcases List.mem_cons.mp he with he | he
          · subst he
            simpa using htops t2 (by simp)
          · exact htops e (by simp [he])
        have hx := ih (addChild t2 (closeEntry t) :: ts2) (by simp) p hmem hstop
        rw [List.cons_append] at hx
        rw [hx]
        rfl

/-! Lemmas about `parsedLinesOf`. -/

theorem enumFrom_filterMap_proj (lines : List JStr) (n : Nat) :
    (((List.enumFrom n lines).filterMap fun il =>
        if trim il.2 = [] then none
        else some (ParsedLine.mk (trim il.2) (leadingSpaces il.2 / 2) (il.1 + 1))).map projPL)
      = lines.filterMap lineTL := by
  induction lines generalizing n with
  | nil => simp
  | cons a as ih =>
    simp only [List.enumFrom, List.filterMap_cons]
    by_cases h : trim a = []
    · simp only [if_pos h, lineTL, ih]
    · simp only [if_neg h, lineTL, List.map_cons, ih, projPL]

theorem projPL_parsedLinesOf (s : JStr) :
    (parsedLinesOf s).map projPL = (splitLines s).filterMap lineTL := by
  unfold parsedLinesOf
  rw [show (splitLines s).enum = List.enumFrom 0 (splitLines s) from rfl]
  exact enumFrom_filterMap_proj _ 0

theorem filterMap_lineTL_length (lines : List JStr) :
    (lines.filterMap lineTL).length = (lines.filter fun l => trim l ≠ []).length := by
  induction lines with
  | nil => rfl
  | cons a as ih =>
    by_cases h : trim a = []
    · simp [lineTL, h, ih]
    · simp [lineTL, h, ih]

theorem parsedLinesOf_length (s : JStr) :
    (parsedLinesOf s).length = ((splitLines s).filter fun l => trim l ≠ []).length := by
  have h := congrArg List.length (projPL_parsedLinesOf s)
  simp only [List.length_map] at h
  rw [h, filterMap_lineTL_length]

/-! Unfolding the two branches of `parseTextToTree`. -/

theorem parse_eq_empty (text : JStr) (h : parsedLinesOf text = []) :
    parseTextToTree text = MindmapNode.mk 0 ("Empty Mindmap".data) [] := by
  unfold parseTextToTree
  rw [h]

theorem parse_eq_build (text : JStr) (p0 : ParsedLine) (rest : List ParsedLine)
    (h : parsedLinesOf text = p0 :: rest) :
    parseTextToTree text =
      collapseStack ((rest.enum).foldl (fun st ip => insertLine st ip.2 (ip.1 + 1))
        [BuildEntry.mk 0 p0.text p0.level []]) := by
  unfold parseTextToTree
  rw [h]

/-! The counting invariant of the parse loop. -/

@[simp] theorem countList_nil : countList [] = 0 := rfl

@[simp] theorem countList_cons (c : MindmapNode) (cs : List MindmapNode) :
    countList (c :: cs) = countNodes c + countList cs := by
  rw [countList]

@[simp] theorem countNodes_mk (i : Nat) (t : JStr) (cs : List MindmapNode) :
    countNodes (MindmapNode.mk i t cs) = 1 + countList cs := by
  rw [countNodes]

theorem countList_append (xs ys : List MindmapNode) :
    countList (xs ++ ys) = countList xs + countList ys := by
  induction xs with
  | nil => simp
  | cons a as ih => simp [ih, Nat.add_assoc]

@[simp] theorem countNodes_closeEntry (e : BuildEntry) :
    countNodes (closeEntry e) = 1 + countList e.children := by
  rw [closeEntry, countNodes]

@[simp] theorem stackCount_nil : stackCount [] = 0 := rfl

@[simp] theorem stackCount_cons (e : BuildEntry) (st : List BuildEntry) :
    stackCount (e :: st) = 1 + countList e.children + stackCount st := by
  simp [stackCount]

theorem popPhase_stackCount (l : Nat) (st : List BuildEntry) :
    stackCount (popPhase l st) = stackCount st := by
  induction st using listLenInd with
  | step st ih =>
    rcases st with _ | ⟨e, _ | ⟨e2, rest⟩⟩
    · rw [popPhase_nil]
    · rw [popPhase_single]
    · rw [popPhase_cons2]
      by_cases hc : l ≤ e.level
      · rw [if_pos hc, ih _ (by simp)]
        simp [countList_append]
        omega
      · rw [if_neg hc]

theorem collapseStack_count (st : List BuildEntry) (h : st ≠ []) :
    countNodes (collapseStack st) = stackCount st := by
  induction st using listLenInd with
  | step st ih =>
    rcases st with _ | ⟨e, _ | ⟨e2, rest⟩⟩
    · exact absurd rfl h
    · rw [collapseStack_single]
      simp
    · rw [collapseStack_cons2, ih _ (by simp) (by simp)]
      simp [countList_append]
      omega

theorem fold_insert_count (pls : List (Nat × ParsedLine)) (st : List BuildEntry) :
    stackCount (pls.foldl (fun s ip => insertLine s ip.2 (ip.1 + 1)) st) =
      stackCount st + pls.length := by
  induction pls generalizing st with
  | nil => simp
  | cons a as ih =>
    simp only [List.foldl_cons, List.length_cons]
    rw [ih]
    simp [insertLine, popPhase_stackCount]
    omega

theorem fold_insert_ne_nil (pls : List (Nat × ParsedLine)) (st : List BuildEntry)
    (h : st ≠ []) :
    (pls.foldl (fun s ip => insertLine s ip.2 (ip.1 + 1)) st) ≠ [] := by
  induction pls generalizing st with
  | nil => exact h
  | cons a as ih =>
    simp only [List.foldl_cons]
    exact ih _ (by simp [insertLine])

/-! Claim C2: the ancestor-stack attachment rule. -/

/-- C2: in `parseTextToTree`, for every surviving line after the first,
(1) the stack is popped while the top entry's level is greater than or equal
to the current line's level but never below the root entry — the pops fold
the popped entries into one finished subtree attached as the last child of
the entry then on top; (2) processing a line pushes the new node, with its
level and no children yet, on the popped stack; (3) consequently a line
whose level is less than or equal to every open ancestor's level other than
the root's still attaches to the root: the pop phase ends in the root entry
alone. -/
theorem ancestor_stack_attachment :
    (∀ (l : Nat) (tops : List BuildEntry) (p : BuildEntry) (below : List BuildEntry),
        (∀ e ∈ tops, l ≤ e.level) → (p.level < l ∨ below = []) →
        popPhase l (tops ++ p :: below) =
          (match tops with
           | [] => p
           | t :: ts => addChild p (chainClose t ts)) :: below) ∧
    (∀ (st : List BuildEntry) (pl : ParsedLine) (nid : Nat),
        insertLine st pl nid = BuildEntry.mk nid pl.text pl.level [] :: popPhase pl.level st) ∧
    (∀ (l : Nat) (st : List BuildEntry) (h : st ≠ []),
        (∀ e ∈ st.dropLast, l ≤ e.level) →
        ∃ e : BuildEntry, popPhase l st = [e] ∧ e.text = (st.getLast h).text ∧
          e.level = (st.getLast h).level) := by
  refine ⟨fun l tops p below => popPhase_eq l below tops p, fun st pl nid => rfl, ?_⟩
  intro l st h hall
  have hx := popPhase_eq l [] st.dropLast (st.getLast h) hall (Or.inr rfl)
  rw [List.dropLast_append_getLast h] at hx
  rcases hdl : st.dropLast with _ | ⟨t, ts⟩
  · rw [hdl] at hx
    exact ⟨st.getLast h, by simpa using hx, rfl, rfl⟩
  · rw [hdl] at hx
    exact ⟨addChild (st.getLast h) (chainClose t ts), by simpa using hx, by simp, by simp⟩

/-- Concrete instantiation of `ancestor_stack_attachment`: a level-1 line pops
a level-2 entry onto the root; a pushed node; and a level-0 line attaching to
the root through a level-1 ancestor. -/
theorem ancestor_stack_attachment_witness :
    popPhase 1 [BuildEntry.mk 2 ("c".data) 2 [], BuildEntry.mk 1 ("r".data) 0 []] =
      [addChild (BuildEntry.mk 1 ("r".data) 0 [])
        (chainClose (BuildEntry.mk 2 ("c".data) 2 []) [])] ∧
    insertLine [BuildEntry.mk 1 ("r".data) 0 []] (ParsedLine.mk ("a".data) 1 2) 1 =
      BuildEntry.mk 1 ("a".data) 1 [] :: popPhase 1 [BuildEntry.mk 1 ("r".data) 0 []] ∧
    ∃ e : BuildEntry,
      popPhase 0 [BuildEntry.mk 1 ("a".data) 1 [], BuildEntry.mk 0 ("r".data) 0 []] = [e] ∧
      e.text = ([BuildEntry.mk 1 ("a".data) 1 [],
        BuildEntry.mk 0 ("r".data) 0 []].getLast (by simp)).text ∧
      e.level = ([BuildEntry.mk 1 ("a".data) 1 [],
        BuildEntry.mk 0 ("r".data) 0 []].getLast (by simp)).level := by
  refine ⟨?_, ?_, ?_⟩
  · exact ancestor_stack_attachment.1 1 [BuildEntry.mk 2 ("c".data) 2 []]
      (BuildEntry.mk 1 ("r".data) 0 []) [] (by decide) (Or.inr rfl)
  · exact ancestor_stack_attachment.2.1 _ _ _
  · exact ancestor_stack_attachment.2.2 0 _ (by simp) (by decide)

/-! Claim C3: node count equals the number of non-blank lines. -/

/-- C3: for every input text whose number of non-blank lines (lines whose
trimmed content is non-empty) is `k` with `k ≥ 1`,
`countNodes (parseTextToTree text)` equals `k`. -/
theorem countNodes_parse_eq_nonblank (text : JStr) (k : Nat)
    (hk : k = ((splitLines text).filter fun l => trim l ≠ []).length) (h1 : 1 ≤ k) :
    countNodes (parseTextToTree text) = k := by
  rcases hp : parsedLinesOf text with _ | ⟨p0, rest⟩
  · have hlen := parsedLinesOf_length text
    rw [hp] at hlen
    simp only [List.length_nil] at hlen
    omega
  · rw [parse_eq_build text p0 rest hp]
    rw [collapseStack_count _ (fold_insert_ne_nil _ _ (by simp))]
    rw [fold_insert_count]
    have hlen := parsedLinesOf_length text
    rw [hp] at hlen
    simp only [List.length_cons] at hlen
    simp only [stackCount_cons, stackCount_nil, countList_nil, List.enum_length]
    omega

/-- Concrete instantiation of `countNodes_parse_eq_nonblank` on an input with
two non-blank lines and one blank line. -/
theorem countNodes_parse_eq_nonblank_witness :
    2 = ((splitLines ("a\n\n  b".data)).filter fun l => trim l ≠ []).length ∧
    1 ≤ 2 ∧ countNodes (parseTextToTree ("a\n\n  b".data)) = 2 :=
  ⟨by decide, by decide, countNodes_parse_eq_nonblank _ 2 (by decide) (by decide)⟩

/-! Claim C6: the placeholder for blank input. -/

theorem parsedLinesOf_eq_nil (text : JStr) (h : ∀ l ∈ splitLines text, trim l = []) :
    parsedLinesOf text = [] := by
  have h0 : (splitLines text).filter (fun l => trim l ≠ []) = [] := by
    rw [List.filter_eq_nil_iff]
    intro a ha
    simp [h a ha]
  have h2 := parsedLinesOf_length text
  rw [h0] at h2
  simp only [List.length_nil] at h2
  exact List.length_eq_zero.mp h2

/-- C6 (amended): whenever the input contains no non-blank line — every line
of the split trims to empty — `parseTextToTree` returns the fixed placeholder
(text `"Empty Mindmap"`, no children) as a normal return value; the converse
does not hold, because an ordinary input line reading `Empty Mindmap` yields
an identical value (see the counterexample). -/
theorem placeholder_on_blank_input (text : JStr)
    (h : ∀ l ∈ splitLines text, trim l = []) :
    (parseTextToTree text).text = ("Empty Mindmap".data) ∧
    (parseTextToTree text).children = [] := by
  rw [parse_eq_empty text (parsedLinesOf_eq_nil text h)]
  exact ⟨rfl, rfl⟩

/-- Concrete instantiation of `placeholder_on_blank_input` at `""` and at
`"   \n\n"`. -/
theorem placeholder_on_blank_input_witness :
    ((parseTextToTree ("".data)).text = ("Empty Mindmap".data) ∧
      (parseTextToTree ("".data)).children = []) ∧
    ((parseTextToTree ("   \n\n".data)).text = ("Empty Mindmap".data) ∧
      (parseTextToTree ("   \n\n".data)).children = []) :=
  ⟨placeholder_on_blank_input _ (by decide), placeholder_on_blank_input _ (by decide)⟩

/-- C6 counterexample to `precisely when`: the input `"Empty Mindmap"` has a
non-blank line, yet its parse is a node with text `"Empty Mindmap"` and no
children — by value indistinguishable from the placeholder, so the
placeholder return is not characterized by the absence of non-blank lines. -/
theorem placeholder_only_if_counterexample :
    (parseTextToTree ("Empty Mindmap".data)).text = ("Empty Mindmap".data) ∧
    (parseTextToTree ("Empty Mindmap".data)).children = [] ∧
    ¬(∀ l ∈ splitLines ("Empty Mindmap".data), trim l = []) :=
  ⟨by decide, rfl, by decide⟩

/-! Unfolding lemmas for the layout engine. -/

theorem layoutNode_def (i : Nat) (t : JStr) (cs : List MindmapNode) (x sy : ℚ) :
    layoutNode (MindmapNode.mk i t cs) x sy =
      NodePosition.mk (MindmapNode.mk i t cs) x
        (match layoutChildren cs (x + LEVEL_GAP) sy with
         | [] => sy
         | c0 :: cs2 => (c0.y + lastBottomL (c0 :: cs2)) / 2 - NODE_HEIGHT / 2)
        (max 100 ((t.length : ℚ) * 8 + NODE_PADDING * 2)) NODE_HEIGHT
        (layoutChildren cs (x + LEVEL_GAP) sy) := rfl

theorem layoutChildren_nil (x cy : ℚ) : layoutChildren [] x cy = [] := rfl

theorem layoutChildren_cons (c : MindmapNode) (cs : List MindmapNode) (x cy : ℚ) :
    layoutChildren (c :: cs) x cy =
      layoutNode c x cy :: layoutChildren cs x
        ((layoutNode c x cy).y + getSubtreeHeight (layoutNode c x cy) + SIBLING_GAP) := rfl

theorem layoutNode_node (n : MindmapNode) (x sy : ℚ) : (layoutNode n x sy).node = n := by
  cases n
  rfl

theorem layoutNode_x (n : MindmapNode) (x sy : ℚ) : (layoutNode n x sy).x = x := by
  cases n
  rfl

theorem layoutNode_height (n : MindmapNode) (x sy : ℚ) :
    (layoutNode n x sy).height = NODE_HEIGHT := by
  cases n
  rfl

theorem layoutNode_width (n : MindmapNode) (x sy : ℚ) :
    (layoutNode n x sy).width = max 100 ((n.text.length : ℚ) * 8 + NODE_PADDING * 2) := by
  cases n
  rfl

theorem layoutNode_children (n : MindmapNode) (x sy : ℚ) :
    (layoutNode n x sy).children = layoutChildren n.children (x + LEVEL_GAP) sy := by
  cases n
  rfl

theorem layoutNode_y (n : MindmapNode) (x sy : ℚ) :
    (layoutNode n x sy).y =
      (match layoutChildren n.children (x + LEVEL_GAP) sy with
       | [] => sy
       | c0 :: cs2 => (c0.y + lastBottomL (c0 :: cs2)) / 2 - NODE_HEIGHT / 2) := by
  cases n
  rfl

theorem getSubtreeHeight_mk_nil (n : MindmapNode) (x y w h : ℚ) :
    getSubtreeHeight (NodePosition.mk n x y w h []) = h := rfl

theorem getSubtreeHeight_mk_cons (n : MindmapNode) (x y w h : ℚ) (c : NodePosition)
    (cs : List NodePosition) :
    getSubtreeHeight (NodePosition.mk n x y w h (c :: cs)) = lastBottomL (c :: cs) - y := rfl

theorem lastBottomL_single (c : NodePosition) :
    lastBottomL [c] = c.y + getSubtreeHeight c := rfl

theorem lastBottomL_cons2 (c c2 : NodePosition) (cs : List NodePosition) :
    lastBottomL (c :: c2 :: cs) = lastBottomL (c2 :: cs) := rfl

theorem flattenPositions_eq (p : NodePosition) :
    flattenPositions p = p :: flattenList p.children := by
  cases p
  rfl

theorem flattenList_nil : flattenList [] = [] := rfl

theorem flattenList_cons (p : NodePosition) (ps : List NodePosition) :
    flattenList (p :: ps) = flattenPositions p ++ flattenList ps := rfl

theorem self_mem_flatten (p : NodePosition) : p ∈ flattenPositions p := by
  rw [flattenPositions_eq]
  exact List.mem_cons_self _ _

theorem mem_flattenList_of_mem (cs : List NodePosition) (c q : NodePosition)
    (hc : c ∈ cs) (hq : q ∈ flattenPositions c) : q ∈ flattenList cs := by
  induction cs with
  | nil => cases hc
  | cons a as ih =>
    rw [flattenList_cons]
    rcases List.mem_cons.mp hc with h | h
    · subst h
      exact List.mem_append_left _ hq
    · exact List.mem_append_right _ (ih h)

theorem mem_flatten_of_mem_child (p : NodePosition) (c : NodePosition) (q : NodePosition)
    (hc : c ∈ p.children) (hq : q ∈ flattenPositions c) : q ∈ flattenPositions p := by
  rw [flattenPositions_eq]
  exact List.mem_cons_of_mem _ (mem_flattenList_of_mem _ c q hc hq)

/-! Claim C7: totality and well-formedness. -/

theorem mirrorsList_layoutChildren (cs : List MindmapNode)
    (hm : ∀ c ∈ cs, ∀ (x2 sy2 : ℚ), mirrors (layoutNode c x2 sy2) c) :
    ∀ (x cy : ℚ), mirrorsList (layoutChildren cs x cy) cs := by
  induction cs with
  | nil =>
    intro x cy
    rw [layoutChildren_nil]
    exact trivial
  | cons c cs ih =>
    intro x cy
    rw [layoutChildren_cons]
    exact ⟨hm c (by simp) x cy, ih (fun c2 h2 => hm c2 (by simp [h2])) x _⟩

theorem mirrors_layoutNode (n : MindmapNode) :
    ∀ (x sy : ℚ), mirrors (layoutNode n x sy) n := by
  induction n using mnInd with
  | step i t cs ihm =>
    intro x sy
    rw [layoutNode_def]
    show (MindmapNode.mk i t cs = MindmapNode.mk i t cs) ∧ _
    refine ⟨rfl, ?_⟩
    show mirrorsList (layoutChildren cs (x + LEVEL_GAP) sy) cs
    exact mirrorsList_layoutChildren cs ihm _ _

theorem flattenList_length_layoutChildren (cs : List MindmapNode)
    (hm : ∀ c ∈ cs, ∀ (x2 sy2 : ℚ),
      (flattenPositions (layoutNode c x2 sy2)).length = countNodes c) :
    ∀ (x cy : ℚ), (flattenList (layoutChildren cs x cy)).length = countList cs := by
  induction cs with
  | nil =>
    intro x cy
    rw [layoutChildren_nil, flattenList_nil]
    rfl
  | cons c cs ih =>
    intro x cy
    rw [layoutChildren_cons, flattenList_cons, List.length_append,
      hm c (by simp) x cy, ih (fun c2 h2 => hm c2 (by simp [h2])) x _, countList_cons]

theorem flatten_length_layoutNode (n : MindmapNode) :
    ∀ (x sy : ℚ), (flattenPositions (layoutNode n x sy)).length = countNodes n := by
  induction n using mnInd with
  | step i t cs ihm =>
    intro x sy
    rw [flattenPositions_eq, layoutNode_children, MindmapNode.children_mk,
      List.length_cons, countNodes_mk, flattenList_length_layoutChildren cs ihm _ _]
    omega

/-- C7: totality.  Every input string parses to a well-formed node (at least
the root is present), the ancestor stack never empties (so the source's
`stack[stack.length - 1]` accesses stay in bounds), and for every finite node
tree the layout is a position tree that mirrors the node tree one-to-one —
in the embedding all of these functions are total by construction, so no
error path exists. -/
theorem parser_layout_totality :
    (∀ text : JStr, 1 ≤ countNodes (parseTextToTree text)) ∧
    (∀ (l : Nat) (st : List BuildEntry), st ≠ [] → popPhase l st ≠ []) ∧
    (∀ n : MindmapNode, mirrors (calculateLayout n) n ∧
      (flattenPositions (calculateLayout n)).length = countNodes n) := by
  refine ⟨?_, popPhase_ne_nil, ?_⟩
  · intro text
    rcases h : parseTextToTree text with ⟨i, t, cs⟩
    rw [countNodes_mk]
    omega
  · intro n
    exact ⟨mirrors_layoutNode n 0 0, flatten_length_layoutNode n 0 0⟩

/-- Concrete instantiation of `parser_layout_totality`. -/
theorem parser_layout_totality_witness :
    1 ≤ countNodes (parseTextToTree ("x".data)) ∧
    ([BuildEntry.mk 0 ("r".data) 0 []] ≠ ([] : List BuildEntry) ∧
      popPhase 5 [BuildEntry.mk 0 ("r".data) 0 []] ≠ []) ∧
    mirrors (calculateLayout (MindmapNode.mk 0 ("x".data) [])) (MindmapNode.mk 0 ("x".data) []) :=
  ⟨parser_layout_totality.1 _,
    ⟨by simp, parser_layout_totality.2.1 5 _ (by simp)⟩,
    (parser_layout_totality.2.2 (MindmapNode.mk 0 ("x".data) [])).1⟩

/-! The vertical invariants of the layout: every node is placed at or below
its start cursor, and every subtree has height at least `NODE_HEIGHT`. -/

theorem lastBottomL_layoutChildren (cs : List MindmapNode) :
    ∀ (c : MindmapNode) (x cy : ℚ),
      (∀ c2 ∈ c :: cs, ∀ (x2 sy2 : ℚ), sy2 ≤ (layoutNode c2 x2 sy2).y ∧
        NODE_HEIGHT ≤ getSubtreeHeight (layoutNode c2 x2 sy2)) →
      (layoutNode c x cy).y + NODE_HEIGHT ≤ lastBottomL (layoutChildren (c :: cs) x cy) := by
  induction cs with
  | nil =>
    intro c x cy hm
    rw [layoutChildren_cons, layoutChildren_nil, lastBottomL_single]
    have h := (hm c (by simp) x cy).2
    linarith
  | cons c2 cs2 ih =>
    intro c x cy hm
    rw [layoutChildren_cons, layoutChildren_cons, lastBottomL_cons2, ← layoutChildren_cons]
    have hih := ih c2 x
      ((layoutNode c x cy).y + getSubtreeHeight (layoutNode c x cy) + SIBLING_GAP)
      (fun c3 h3 x3 sy3 => hm c3 (by simp at h3 ⊢; tauto) x3 sy3)
    have h1 := (hm c (by simp) x cy).2
    have h2 := (hm c2 (by simp) x
      ((layoutNode c x cy).y + getSubtreeHeight (layoutNode c x cy) + SIBLING_GAP)).1
    have hNH : NODE_HEIGHT = 40 := rfl
    have hSG : SIBLING_GAP = 20 := rfl
    linarith

theorem layout_y_height (n : MindmapNode) :
    ∀ (x sy : ℚ), sy ≤ (layoutNode n x sy).y ∧
      NODE_HEIGHT ≤ getSubtreeHeight (layoutNode n x sy) := by
  induction n using mnInd with
  | step i t cs ihm =>
    intro x sy
    rcases cs with _ | ⟨c, cs'⟩
    · constructor
      · rw [show (layoutNode (MindmapNode.mk i t []) x sy).y = sy from rfl]
      · rw [show getSubtreeHeight (layoutNode (MindmapNode.mk i t []) x sy) =
          NODE_HEIGHT from rfl]
    · have hm2 : ∀ c2 ∈ c :: cs', ∀ (x2 sy2 : ℚ), sy2 ≤ (layoutNode c2 x2 sy2).y ∧
          NODE_HEIGHT ≤ getSubtreeHeight (layoutNode c2 x2 sy2) :=
        fun c2 h2 x2 sy2 => ihm c2 h2 x2 sy2
      have hlast := lastBottomL_layoutChildren cs' c (x + LEVEL_GAP) sy hm2
      have hc0 := (ihm c (by simp) (x + LEVEL_GAP) sy).1
      have hy : (layoutNode (MindmapNode.mk i t (c :: cs')) x sy).y =
          ((layoutNode c (x + LEVEL_GAP) sy).y +
            lastBottomL (layoutChildren (c :: cs') (x + LEVEL_GAP) sy)) / 2 -
            NODE_HEIGHT / 2 := rfl
      have hh : getSubtreeHeight (layoutNode (MindmapNode.mk i t (c :: cs')) x sy) =
          lastBottomL (layoutChildren (c :: cs') (x + LEVEL_GAP) sy) -
            (layoutNode (MindmapNode.mk i t (c :: cs')) x sy).y := rfl
      have hNH : NODE_HEIGHT = 40 := rfl
      constructor
      · rw [hy]
        linarith
      · rw [hh, hy]
        linarith

theorem layoutNode_cons_y (i : Nat) (t : JStr) (c : MindmapNode) (cs : List MindmapNode)
    (x sy : ℚ) :
    (layoutNode (MindmapNode.mk i t (c :: cs)) x sy).y =
      ((layoutNode c (x + LEVEL_GAP) sy).y +
        lastBottomL (layoutChildren (c :: cs) (x + LEVEL_GAP) sy)) / 2 - NODE_HEIGHT / 2 := rfl

theorem flattenList_y_lb (cs : List MindmapNode) :
    ∀ (x cy : ℚ),
      (∀ c ∈ cs, ∀ (x2 sy2 : ℚ), ∀ q ∈ flattenPositions (layoutNode c x2 sy2), sy2 ≤ q.y) →
      ∀ q ∈ flattenList (layoutChildren cs x cy), cy ≤ q.y := by
  induction cs with
  | nil =>
    intro x cy hm q hq
    rw [layoutChildren_nil, flattenList_nil] at hq
    cases hq
  | cons c cs' ih =>
    intro x cy hm q hq
    rw [layoutChildren_cons, flattenList_cons] at hq
    rcases List.mem_append.mp hq with h | h
    · exact hm c (by simp) x cy q h
    · have h1 := (layout_y_height c x cy).1
      have h2 := (layout_y_height c x cy).2
      have hNH : NODE_HEIGHT = 40 := rfl
      have hSG : SIBLING_GAP = 20 := rfl
      have hx := ih x ((layoutNode c x cy).y + getSubtreeHeight (layoutNode c x cy) + SIBLING_GAP)
        (fun c2 hc2 x2 sy2 => hm c2 (by simp [hc2]) x2 sy2) q h
      linarith

theorem flatten_y_lb (n : MindmapNode) :
    ∀ (x sy : ℚ), ∀ q ∈ flattenPositions (layoutNode n x sy), sy ≤ q.y := by
  induction n using mnInd with
  | step i t cs ihm =>
    intro x sy q hq
    rw [flattenPositions_eq, layoutNode_children, MindmapNode.children_mk] at hq
    rcases List.mem_cons.mp hq with h | h
    · rw [h]
      exact (layout_y_height _ x sy).1
    · exact flattenList_y_lb cs (x + LEVEL_GAP) sy (fun c hc => ihm c hc) q h

theorem flatten_y_attained (n : MindmapNode) :
    ∀ (x sy : ℚ), ∃ q ∈ flattenPositions (layoutNode n x sy), q.y = sy := by
  induction n using mnInd with
  | step i t cs ihm =>
    intro x sy
    rcases cs with _ | ⟨c, cs'⟩
    · exact ⟨layoutNode (MindmapNode.mk i t []) x sy, self_mem_flatten _, rfl⟩
    · obtain ⟨q, hq, hqy⟩ := ihm c (by simp) (x + LEVEL_GAP) sy
      refine ⟨q, ?_, hqy⟩
      apply mem_flatten_of_mem_child _ (layoutNode c (x + LEVEL_GAP) sy) _ _ hq
      rw [layoutNode_children, MindmapNode.children_mk, layoutChildren_cons]
      exact List.mem_cons_self _ _

theorem flattenList_is_layout (cs : List MindmapNode) :
    ∀ (x cy : ℚ),
      (∀ c ∈ cs, ∀ (x2 sy2 : ℚ), ∀ q ∈ flattenPositions (layoutNode c x2 sy2),
        ∃ m, ∃ (x3 sy3 : ℚ), q = layoutNode m x3 sy3) →
      ∀ q ∈ flattenList (layoutChildren cs x cy),
        ∃ m, ∃ (x3 sy3 : ℚ), q = layoutNode m x3 sy3 := by
  induction cs with
  | nil =>
    intro x cy hm q hq
    rw [layoutChildren_nil, flattenList_nil] at hq
    cases hq
  | cons c cs' ih =>
    intro x cy hm q hq
    rw [layoutChildren_cons, flattenList_cons] at hq
    rcases List.mem_append.mp hq with h | h
    · exact hm c (by simp) x cy q h
    · exact ih x _ (fun c2 hc2 x2 sy2 => hm c2 (by simp [hc2]) x2 sy2) q h

theorem flatten_is_layout (n : MindmapNode) :
    ∀ (x sy : ℚ), ∀ q ∈ flattenPositions (layoutNode n x sy),
      ∃ m, ∃ (x2 sy2 : ℚ), q = layoutNode m x2 sy2 := by
  induction n using mnInd with
  | step i t cs ihm =>
    intro x sy q hq
    rw [flattenPositions_eq, layoutNode_children, MindmapNode.children_mk] at hq
    rcases List.mem_cons.mp hq with h | h
    · exact ⟨MindmapNode.mk i t cs, x, sy, h⟩
    · exact flattenList_is_layout cs (x + LEVEL_GAP) sy (fun c hc => ihm c hc) q h

theorem lastBottomL_eq_getLast (ps : List NodePosition) (h : ps ≠ []) :
    lastBottomL ps = (ps.getLast h).y + getSubtreeHeight (ps.getLast h) := by
  induction ps with
  | nil => exact absurd rfl h
  | cons c cs ih =>
    rcases cs with _ | ⟨c2, cs2⟩
    · rw [lastBottomL_single]
      simp
    · rw [lastBottomL_cons2, ih (by simp)]
      have hg : (c :: c2 :: cs2).getLast h = (c2 :: cs2).getLast (by simp) :=
        List.getLast_cons (by simp)
      rw [hg]

/-! Claim C5: parent centering. -/

/-- C5: in every position tree produced by `calculateLayout`, a position with
children has `y` equal to the midpoint of its first child's `y` and the
bottom of its last child's subtree (that child's `y` plus its subtree
height), minus half the node's own height `NODE_HEIGHT / 2`; a position
without children keeps the `startY` cursor it was laid out with,
unchanged. -/
theorem parent_centering :
    (∀ (n : MindmapNode) (x sy : ℚ), (layoutNode n x sy).children = [] →
      (layoutNode n x sy).y = sy) ∧
    (∀ (m : MindmapNode), ∀ p ∈ flattenPositions (calculateLayout m),
      ∀ h : p.children ≠ [],
      p.y = ((p.children.head h).y +
        ((p.children.getLast h).y + getSubtreeHeight (p.children.getLast h))) / 2 -
        NODE_HEIGHT / 2) := by
  constructor
  · intro n x sy h
    rcases n with ⟨i, t, cs⟩
    rcases cs with _ | ⟨c, cs'⟩
    · rfl
    · rw [layoutNode_children, MindmapNode.children_mk, layoutChildren_cons] at h
      simp at h
  · intro m p hp h
    obtain ⟨m2, x2, sy2, rfl⟩ := flatten_is_layout m 0 0 p hp
    rcases m2 with ⟨i, t, cs⟩
    rcases cs with _ | ⟨c, cs'⟩
    · exact absurd rfl h
    · rw [← lastBottomL_eq_getLast _ h]
      have hhead : (layoutNode (MindmapNode.mk i t (c :: cs')) x2 sy2).children.head h =
          layoutNode c (x2 + LEVEL_GAP) sy2 := List.head_cons
      rw [hhead, layoutNode_cons_y]
      rfl

/-! Claim C4: the vertical gap between adjacent sibling subtrees. -/

theorem adjacent_gap (cs : List MindmapNode) :
    ∀ (x cy : ℚ) (i : Nat), i + 1 < (layoutChildren cs x cy).length →
      (∀ q ∈ flattenPositions ((layoutChildren cs x cy).getD (i + 1) dummyPos),
        ((layoutChildren cs x cy).getD i dummyPos).y +
          getSubtreeHeight ((layoutChildren cs x cy).getD i dummyPos) + SIBLING_GAP ≤ q.y) ∧
      (∃ q ∈ flattenPositions ((layoutChildren cs x cy).getD (i + 1) dummyPos),
        q.y = ((layoutChildren cs x cy).getD i dummyPos).y +
          getSubtreeHeight ((layoutChildren cs x cy).getD i dummyPos) + SIBLING_GAP) := by
  induction cs with
  | nil =>
    intro x cy i hi
    rw [layoutChildren_nil] at hi
    simp at hi
  | cons c cs' ih =>
    intro x cy i hi
    rcases i with _ | j
    · rcases cs' with _ | ⟨c2, cs2⟩
      · rw [layoutChildren_cons, layoutChildren_nil] at hi
        simp at hi
      · rw [layoutChildren_cons, List.getD_cons_succ, List.getD_cons_zero,
          layoutChildren_cons, List.getD_cons_zero]
        exact ⟨fun q hq => flatten_y_lb c2 x _ q hq, flatten_y_attained c2 x _⟩
    · have hi2 : j + 1 < (layoutChildren cs' x
          ((layoutNode c x cy).y + getSubtreeHeight (layoutNode c x cy) + SIBLING_GAP)).length := by
        rw [layoutChildren_cons, List.length_cons] at hi
        omega
      have hx := ih x ((layoutNode c x cy).y + getSubtreeHeight (layoutNode c x cy) + SIBLING_GAP)
        j hi2
      rw [layoutChildren_cons, List.getD_cons_succ, List.getD_cons_succ]
      exact hx

/-- C4 (amended): in every position tree produced by `calculateLayout`, for
adjacent sibling subtrees the vertical gap between the bottom of the earlier
subtree (its top `y` plus its subtree height) and the top of the next
sibling subtree — the topmost `y` reached anywhere in that subtree, which is
the cursor position it was laid out at — is exactly `SIBLING_GAP`: every
position of the next subtree lies at or below
`earlier.y + getSubtreeHeight earlier + SIBLING_GAP`, and some position
attains it.  (The next sibling's own root `y` generally lies lower; see the
counterexample.) -/
theorem sibling_gap_min_top (m : MindmapNode) (p : NodePosition)
    (hp : p ∈ flattenPositions (calculateLayout m)) (i : Nat)
    (hi : i + 1 < p.children.length) :
    (∀ q ∈ flattenPositions (p.children.getD (i + 1) dummyPos),
      (p.children.getD i dummyPos).y +
        getSubtreeHeight (p.children.getD i dummyPos) + SIBLING_GAP ≤ q.y) ∧
    (∃ q ∈ flattenPositions (p.children.getD (i + 1) dummyPos),
      q.y = (p.children.getD i dummyPos).y +
        getSubtreeHeight (p.children.getD i dummyPos) + SIBLING_GAP) := by
  obtain ⟨m2, x2, sy2, rfl⟩ := flatten_is_layout m 0 0 p hp
  rw [layoutNode_children] at hi ⊢
  exact adjacent_gap m2.children (x2 + LEVEL_GAP) sy2 i hi

/-- Concrete instantiation of `sibling_gap_min_top`: the two children of the
root of the layout of `"R\n  A\n  B"`. -/
theorem sibling_gap_min_top_witness :
    (∀ q ∈ flattenPositions
        ((calculateLayout (parseTextToTree ("R\n  A\n  B".data))).children.getD 1 dummyPos),
      ((calculateLayout (parseTextToTree ("R\n  A\n  B".data))).children.getD 0 dummyPos).y +
        getSubtreeHeight
          ((calculateLayout (parseTextToTree ("R\n  A\n  B".data))).children.getD 0 dummyPos) +
        SIBLING_GAP ≤ q.y) ∧
    (∃ q ∈ flattenPositions
        ((calculateLayout (parseTextToTree ("R\n  A\n  B".data))).children.getD 1 dummyPos),
      q.y = ((calculateLayout (parseTextToTree ("R\n  A\n  B".data))).children.getD 0 dummyPos).y +
        getSubtreeHeight
          ((calculateLayout (parseTextToTree ("R\n  A\n  B".data))).children.getD 0 dummyPos) +
        SIBLING_GAP) :=
  sibling_gap_min_top (parseTextToTree ("R\n  A\n  B".data)) _ (self_mem_flatten _) 0
    (by decide)

unseal Rat.add Rat.sub Rat.mul Rat.inv in
/-- C4 counterexample to the literal reading: in the layout of
`"R\n  A\n  B\n    C\n    D"`, the second child's own top `y` sits 50 above
the bottom of the first child's subtree, not `SIBLING_GAP = 20` (the second
child is centered over its two children, below its start cursor). -/
theorem sibling_gap_literal_counterexample :
    (calculateLayout (parseTextToTree ("R\n  A\n  B\n    C\n    D".data))).children.length = 2 ∧
    ((calculateLayout (parseTextToTree ("R\n  A\n  B\n    C\n    D".data))).children.getD 1
        dummyPos).y =
      ((calculateLayout (parseTextToTree ("R\n  A\n  B\n    C\n    D".data))).children.getD 0
          dummyPos).y +
        getSubtreeHeight
          ((calculateLayout (parseTextToTree ("R\n  A\n  B\n    C\n    D".data))).children.getD 0
            dummyPos) + 50 ∧
    ¬(((calculateLayout (parseTextToTree ("R\n  A\n  B\n    C\n    D".data))).children.getD 1
        dummyPos).y =
      ((calculateLayout (parseTextToTree ("R\n  A\n  B\n    C\n    D".data))).children.getD 0
          dummyPos).y +
        getSubtreeHeight
          ((calculateLayout (parseTextToTree ("R\n  A\n  B\n    C\n    D".data))).children.getD 0
            dummyPos) + SIBLING_GAP) := by
  decide

/-- Concrete instantiation of `parent_centering`: a leaf keeps its cursor; the
root of the layout of `"R\n  A"` is centered over its single child. -/
theorem parent_centering_witness :
    (layoutNode (MindmapNode.mk 0 ("x".data) []) 3 7).y = 7 ∧
    (calculateLayout (parseTextToTree ("R\n  A".data))).y =
      (((calculateLayout (parseTextToTree ("R\n  A".data))).children.head
          (List.length_pos.mp (by decide))).y +
        (((calculateLayout (parseTextToTree ("R\n  A".data))).children.getLast
            (List.length_pos.mp (by decide))).y +
          getSubtreeHeight ((calculateLayout (parseTextToTree ("R\n  A".data))).children.getLast
            (List.length_pos.mp (by decide))))) / 2 - NODE_HEIGHT / 2 :=
  ⟨parent_centering.1 (MindmapNode.mk 0 ("x".data) []) 3 7 rfl,
    parent_centering.2 (parseTextToTree ("R\n  A".data)) _ (self_mem_flatten _)
      (List.length_pos.mp (by decide))⟩

/-! Claim C9: horizontal positions are multiples of `LEVEL_GAP` by depth,
the root alone has `x = 0`, and the vertical minimum is exactly 0. -/

theorem flattenDepth_eq (p : NodePosition) (d : Nat) :
    flattenDepth p d = (p, d) :: flattenDepthList p.children (d + 1) := by
  cases p
  rfl

theorem flattenDepthList_nil (d : Nat) : flattenDepthList [] d = [] := rfl

theorem flattenDepthList_cons (p : NodePosition) (ps : List NodePosition) (d : Nat) :
    flattenDepthList (p :: ps) d = flattenDepth p d ++ flattenDepthList ps d := rfl

theorem self_mem_flattenDepth (p : NodePosition) (d : Nat) : (p, d) ∈ flattenDepth p d := by
  rw [flattenDepth_eq]
  exact List.mem_cons_self _ _

theorem flattenDepthList_x (cs : List MindmapNode) :
    ∀ (x cy : ℚ) (d : Nat),
      (∀ c ∈ cs, ∀ (x2 sy2 : ℚ) (d2 : Nat), x2 = LEVEL_GAP * (d2 : ℚ) →
        ∀ pd ∈ flattenDepth (layoutNode c x2 sy2) d2, pd.1.x = LEVEL_GAP * (pd.2 : ℚ)) →
      x = LEVEL_GAP * (d : ℚ) →
      ∀ pd ∈ flattenDepthList (layoutChildren cs x cy) d, pd.1.x = LEVEL_GAP * (pd.2 : ℚ) := by
  induction cs with
  | nil =>
    intro x cy d hm hx pd hpd
    rw [layoutChildren_nil, flattenDepthList_nil] at hpd
    cases hpd
  | cons c cs' ih =>
    intro x cy d hm hx pd hpd
    rw [layoutChildren_cons, flattenDepthList_cons] at hpd
    rcases List.mem_append.mp hpd with h | h
    · exact hm c (by simp) x cy d hx pd h
    · exact ih x _ d (fun c2 h2 => hm c2 (by simp [h2])) hx pd h

theorem flattenDepth_x (n : MindmapNode) :
    ∀ (x sy : ℚ) (d : Nat), x = LEVEL_GAP * (d : ℚ) →
      ∀ pd ∈ flattenDepth (layoutNode n x sy) d, pd.1.x = LEVEL_GAP * (pd.2 : ℚ) := by
  induction n using mnInd with
  | step i t cs ihm =>
    intro x sy d hx pd hpd
    rw [flattenDepth_eq, layoutNode_children, MindmapNode.children_mk] at hpd
    rcases List.mem_cons.mp hpd with h | h
    · rw [h]
      simpa [layoutNode_x] using hx
    · apply flattenDepthList_x cs (x + LEVEL_GAP) sy (d + 1) (fun c hc => ihm c hc) ?_ pd h
      rw [hx]
      push_cast
      ring

/-- C9: in every position tree produced by `calculateLayout`, a position at
edge-depth `d` has `x = LEVEL_GAP * d = 150 * d`, and `x = 0` exactly for
the root (depth 0) — the test the renderer uses to recognize the root; every
`y` is non-negative and the minimum `y` is exactly 0. -/
theorem layout_x_depth_y_min (n : MindmapNode) :
    (∀ pd ∈ flattenDepth (calculateLayout n) 0,
      pd.1.x = LEVEL_GAP * (pd.2 : ℚ) ∧ (pd.1.x = 0 ↔ pd.2 = 0)) ∧
    (∀ q ∈ flattenPositions (calculateLayout n), 0 ≤ q.y) ∧
    (∃ q ∈ flattenPositions (calculateLayout n), q.y = 0) := by
  refine ⟨?_, fun q hq => flatten_y_lb n 0 0 q hq, flatten_y_attained n 0 0⟩
  intro pd hpd
  have hx := flattenDepth_x n 0 0 0 (by simp) pd hpd
  refine ⟨hx, ?_, ?_⟩
  · intro h0
    rw [h0] at hx
    have hc : (pd.2 : ℚ) = 0 := by
      have hLG : LEVEL_GAP = 150 := rfl
      rw [hLG] at hx
      linarith
    exact_mod_cast hc
  · intro h0
    rw [hx, h0]
    simp

/-- Concrete instantiation of `layout_x_depth_y_min` at a one-node tree. -/
theorem layout_x_depth_y_min_witness :
    ((calculateLayout (MindmapNode.mk 0 ("x".data) [])).x =
        LEVEL_GAP * ((0 : Nat) : ℚ) ∧
      ((calculateLayout (MindmapNode.mk 0 ("x".data) [])).x = 0 ↔ (0 : Nat) = 0)) ∧
    0 ≤ (calculateLayout (MindmapNode.mk 0 ("x".data) [])).y :=
  ⟨(layout_x_depth_y_min (MindmapNode.mk 0 ("x".data) [])).1
      (calculateLayout (MindmapNode.mk 0 ("x".data) []), 0) (self_mem_flattenDepth _ 0),
    (layout_x_depth_y_min (MindmapNode.mk 0 ("x".data) [])).2.1 _ (self_mem_flatten _)⟩

/-! Claim C8: the bounding box is the min/max over the flattened positions. -/

theorem foldl_minAcc_some {α : Type} (f : α → ℚ) (l : List α) (v : ℚ) :
    l.foldl (fun m p => minAcc m (f p)) (some v) =
      some (l.foldl (fun m p => min m (f p)) v) := by
  induction l generalizing v with
  | nil => rfl
  | cons a as ih =>
    rw [List.foldl_cons, show minAcc (some v) (f a) = some (min v (f a)) from rfl, ih,
      List.foldl_cons]

theorem foldl_maxAcc_some {α : Type} (f : α → ℚ) (l : List α) (v : ℚ) :
    l.foldl (fun m p => maxAcc m (f p)) (some v) =
      some (l.foldl (fun m p => max m (f p)) v) := by
  induction l generalizing v with
  | nil => rfl
  | cons a as ih =>
    rw [List.foldl_cons, show maxAcc (some v) (f a) = some (max v (f a)) from rfl, ih,
      List.foldl_cons]

theorem foldl_min_le {α : Type} (f : α → ℚ) (l : List α) :
    ∀ v : ℚ, (l.foldl (fun m p => min m (f p)) v) ≤ v ∧
      ∀ p ∈ l, (l.foldl (fun m p => min m (f p)) v) ≤ f p := by
  induction l with
  | nil => simp
  | cons a as ih =>
    intro v
    rw [List.foldl_cons]
    refine ⟨le_trans (ih (min v (f a))).1 (min_le_left _ _), ?_⟩
    intro p hp
    rcases List.mem_cons.mp hp with h | h
    · subst h
      exact le_trans (ih (min v (f p))).1 (min_le_right _ _)
    · exact (ih (min v (f a))).2 p h

theorem foldl_max_ge {α : Type} (f : α → ℚ) (l : List α) :
    ∀ v : ℚ, v ≤ (l.foldl (fun m p => max m (f p)) v) ∧
      ∀ p ∈ l, f p ≤ (l.foldl (fun m p => max m (f p)) v) := by
  induction l with
  | nil => simp
  | cons a as ih =>
    intro v
    rw [List.foldl_cons]
    refine ⟨le_trans (le_max_left _ _) (ih (max v (f a))).1, ?_⟩
    intro p hp
    rcases List.mem_cons.mp hp with h | h
    · subst h
      exact le_trans (le_max_right _ _) (ih (max v (f p))).1
    · exact (ih (max v (f a))).2 p h

theorem foldl_min_attained {α : Type} (f : α → ℚ) (l : List α) :
    ∀ v : ℚ, (l.foldl (fun m p => min m (f p)) v) = v ∨
      ∃ p ∈ l, (l.foldl (fun m p => min m (f p)) v) = f p := by
  induction l with
  | nil => simp
  | cons a as ih =>
    intro v
    rw [List.foldl_cons]
    rcases ih (min v (f a)) with h | ⟨p, hp, he⟩
    · rcases min_cases v (f a) with ⟨he2, _⟩ | ⟨he2, _⟩
      · exact Or.inl (by rw [h, he2])
      · exact Or.inr ⟨a, by simp, by rw [h, he2]⟩
    · exact Or.inr ⟨p, by simp [hp], he⟩

theorem foldl_max_attained {α : Type} (f : α → ℚ) (l : List α) :
    ∀ v : ℚ, (l.foldl (fun m p => max m (f p)) v) = v ∨
      ∃ p ∈ l, (l.foldl (fun m p => max m (f p)) v) = f p := by
  induction l with
  | nil => simp
  | cons a as ih =>
    intro v
    rw [List.foldl_cons]
    rcases ih (max v (f a)) with h | ⟨p, hp, he⟩
    · rcases max_cases v (f a) with ⟨he2, _⟩ | ⟨he2, _⟩
      · exact Or.inl (by rw [h, he2])
      · exact Or.inr ⟨a, by simp, by rw [h, he2]⟩
    · exact Or.inr ⟨p, by simp [hp], he⟩

theorem minAcc_fold_char (f : NodePosition → ℚ) (root : NodePosition) :
    (∀ p ∈ flattenPositions root,
      (((flattenPositions root).foldl (fun m p => minAcc m (f p)) none).getD 0) ≤ f p) ∧
    (∃ p ∈ flattenPositions root,
      (((flattenPositions root).foldl (fun m p => minAcc m (f p)) none).getD 0) = f p) := by
  rw [flattenPositions_eq, List.foldl_cons,
    show minAcc none (f root) = some (f root) from rfl, foldl_minAcc_some, Option.getD_some]
  constructor
  · intro p hp
    rcases List.mem_cons.mp hp with h | h
    · rw [h]
      exact (foldl_min_le f (flattenList root.children) (f root)).1
    · exact (foldl_min_le f (flattenList root.children) (f root)).2 p h
  · rcases foldl_min_attained f (flattenList root.children) (f root) with h | ⟨p, hp, he⟩
    · exact ⟨root, List.mem_cons_self _ _, h⟩
    · exact ⟨p, List.mem_cons_of_mem _ hp, he⟩

theorem maxAcc_fold_char (f : NodePosition → ℚ) (root : NodePosition) :
    (∀ p ∈ flattenPositions root,
      f p ≤ (((flattenPositions root).foldl (fun m p => maxAcc m (f p)) none).getD 0)) ∧
    (∃ p ∈ flattenPositions root,
      (((flattenPositions root).foldl (fun m p => maxAcc m (f p)) none).getD 0) = f p) := by
  rw [flattenPositions_eq, List.foldl_cons,
    show maxAcc none (f root) = some (f root) from rfl, foldl_maxAcc_some, Option.getD_some]
  constructor
  · intro p hp
    rcases List.mem_cons.mp hp with h | h
    · rw [h]
      exact (foldl_max_ge f (flattenList root.children) (f root)).1
    · exact (foldl_max_ge f (flattenList root.children) (f root)).2 p h
  · rcases foldl_max_attained f (flattenList root.children) (f root) with h | ⟨p, hp, he⟩
    · exact ⟨root, List.mem_cons_self _ _, h⟩
    · exact ⟨p, List.mem_cons_of_mem _ hp, he⟩

unseal Rat.add Rat.sub Rat.mul Rat.inv in
/-- C8: `getBoundingBox` returns the minimum of `x`, the minimum of `y`, the
maximum of `x + width` and the maximum of `y + height` over every position
of the flattened (pre-order) position tree, with
`width = maxX - minX` and `height = maxY - minY`; in particular, for a
single-node tree whose text has length 5 it returns `width = 100` and
`height = 40` (the per-node minimum-width floor). -/
theorem boundingBox_minmax :
    (∀ root : NodePosition,
      (∀ p ∈ flattenPositions root,
        (getBoundingBox root).minX ≤ p.x ∧ (getBoundingBox root).minY ≤ p.y ∧
        p.x + p.width ≤ (getBoundingBox root).maxX ∧
        p.y + p.height ≤ (getBoundingBox root).maxY) ∧
      ((∃ p ∈ flattenPositions root, (getBoundingBox root).minX = p.x) ∧
       (∃ p ∈ flattenPositions root, (getBoundingBox root).minY = p.y) ∧
       (∃ p ∈ flattenPositions root, (getBoundingBox root).maxX = p.x + p.width) ∧
       (∃ p ∈ flattenPositions root, (getBoundingBox root).maxY = p.y + p.height)) ∧
      (getBoundingBox root).width = (getBoundingBox root).maxX - (getBoundingBox root).minX ∧
      (getBoundingBox root).height = (getBoundingBox root).maxY - (getBoundingBox root).minY) ∧
    ((getBoundingBox (calculateLayout (MindmapNode.mk 0 ("abcde".data) []))).width = 100 ∧
     (getBoundingBox (calculateLayout (MindmapNode.mk 0 ("abcde".data) []))).height = 40) := by
  refine ⟨?_, by decide, by decide⟩
  intro root
  have hminX := minAcc_fold_char (fun p => p.x) root
  have hminY := minAcc_fold_char (fun p => p.y) root
  have hmaxX := maxAcc_fold_char (fun p => p.x + p.width) root
  have hmaxY := maxAcc_fold_char (fun p => p.y + p.height) root
  exact ⟨fun p hp => ⟨hminX.1 p hp, hminY.1 p hp, hmaxX.1 p hp, hmaxY.1 p hp⟩,
    ⟨hminX.2, hminY.2, hmaxX.2, hmaxY.2⟩, rfl, rfl⟩

/-- Concrete instantiation of `boundingBox_minmax` at a one-node layout. -/
theorem boundingBox_minmax_witness :
    (getBoundingBox (calculateLayout (MindmapNode.mk 0 ("ab".data) []))).minX ≤
      (calculateLayout (MindmapNode.mk 0 ("ab".data) [])).x ∧
    (getBoundingBox (calculateLayout (MindmapNode.mk 0 ("ab".data) []))).minY ≤
      (calculateLayout (MindmapNode.mk 0 ("ab".data) [])).y :=
  ⟨((boundingBox_minmax.1 _).1 _ (self_mem_flatten _)).1,
    ((boundingBox_minmax.1 _).1 _ (self_mem_flatten _)).2.1⟩

/-! Claim C10: every node text produced by the parser is non-empty, fully
trimmed and free of line breaks. -/

theorem allNodes_eq (i : Nat) (t : JStr) (cs : List MindmapNode) :
    allNodes (MindmapNode.mk i t cs) = MindmapNode.mk i t cs :: allNodesList cs := rfl

theorem allNodesList_nil : allNodesList [] = [] := rfl

theorem allNodesList_cons (c : MindmapNode) (cs : List MindmapNode) :
    allNodesList (c :: cs) = allNodes c ++ allNodesList cs := rfl

theorem self_mem_allNodes (m : MindmapNode) : m ∈ allNodes m := by
  cases m
  rw [allNodes_eq]
  exact List.mem_cons_self _ _

theorem mem_allNodesList_iff (cs : List MindmapNode) (q : MindmapNode) :
    q ∈ allNodesList cs ↔ ∃ c ∈ cs, q ∈ allNodes c := by
  induction cs with
  | nil => simp [allNodesList_nil]
  | cons c cs' ih =>
    rw [allNodesList_cons]
    simp only [List.mem_append, ih, List.mem_cons]
    constructor
    · rintro (h | ⟨c2, h2, h3⟩)
      · exact ⟨c, Or.inl rfl, h⟩
      · exact ⟨c2, Or.inr h2, h3⟩
    · rintro ⟨c2, h2 | h2, h3⟩
      · subst h2
        exact Or.inl h3
      · exact Or.inr ⟨c2, h2, h3⟩

theorem goodM_head (i : Nat) (t : JStr) (cs : List MindmapNode)
    (h : goodM (MindmapNode.mk i t cs)) : goodText t :=
  h _ (self_mem_allNodes _)

theorem goodM_children (i : Nat) (t : JStr) (cs : List MindmapNode)
    (h : goodM (MindmapNode.mk i t cs)) : ∀ c ∈ cs, goodM c := by
  intro c hc q hq
  apply h q
  rw [allNodes_eq]
  exact List.mem_cons_of_mem _ ((mem_allNodesList_iff cs q).mpr ⟨c, hc, hq⟩)

theorem goodM_mk (i : Nat) (t : JStr) (cs : List MindmapNode) (h1 : goodText t)
    (h2 : ∀ c ∈ cs, goodM c) : goodM (MindmapNode.mk i t cs) := by
  intro q hq
  rw [allNodes_eq] at hq
  rcases List.mem_cons.mp hq with h | h
  · rw [h]
    exact h1
  · obtain ⟨c, hc, hq2⟩ := (mem_allNodesList_iff cs q).mp h
    exact h2 c hc q hq2

theorem mem_enumFrom_snd {α : Type} (l : List α) :
    ∀ (n : Nat) (p : Nat × α), p ∈ List.enumFrom n l → p.2 ∈ l := by
  induction l with
  | nil =>
    intro n p hp
    cases hp
  | cons a as ih =>
    intro n p hp
    rcases List.mem_cons.mp hp with h | h
    · rw [h]
      exact List.mem_cons_self _ _
    · exact List.mem_cons_of_mem _ (ih (n + 1) p h)

theorem parsedLinesOf_good (s : JStr) : ∀ pl ∈ parsedLinesOf s, goodText pl.text := by
  intro pl hpl
  unfold parsedLinesOf at hpl
  obtain ⟨il, hil, hsome⟩ := List.mem_filterMap.mp hpl
  by_cases hb : trim il.2 = []
  · rw [if_pos hb] at hsome
    cases hsome
  · rw [if_neg hb] at hsome
    have hline : il.2 ∈ splitLines s := mem_enumFrom_snd _ 0 il hil
    have hinj := Option.some.inj hsome
    have htext : pl.text = trim il.2 := by
      rw [← hinj]
    refine ⟨by rw [htext]; exact hb, by rw [htext]; exact trim_idem _, ?_⟩
    rw [htext]
    intro hmem
    exact splitLines_no_nl s il.2 hline (mem_trim _ _ hmem)

theorem goodM_closeEntry (e : BuildEntry) (h1 : goodText e.text)
    (h2 : ∀ c ∈ e.children, goodM c) : goodM (closeEntry e) :=
  goodM_mk _ _ _ h1 h2

theorem popGo_good (l : Nat) (st : List BuildEntry) :
    ∀ e : BuildEntry,
      (∀ e2 ∈ e :: st, goodText e2.text ∧ ∀ c ∈ e2.children, goodM c) →
      ∀ e2 ∈ popGo l e st, goodText e2.text ∧ ∀ c ∈ e2.children, goodM c := by
  induction st with
  | nil =>
    intro e hinv e2 he2
    rcases List.mem_cons.mp he2 with h | h
    · rw [h]
      exact hinv e (by simp)
    · cases h
  | cons e3 rest ih =>
    intro e hinv e2 he2
    rw [show popGo l e (e3 :: rest) =
      (if l ≤ e.level then popGo l (addChild e3 (closeEntry e)) rest
       else e :: e3 :: rest) from rfl] at he2
    by_cases hc : l ≤ e.level
    · rw [if_pos hc] at he2
      refine ih (addChild e3 (closeEntry e)) ?_ e2 he2
      intro e4 he4
      rcases List.mem_cons.mp he4 with h | h
      · rw [h]
        refine ⟨(hinv e3 (by simp)).1, ?_⟩
        intro c hcm
        rw [addChild_children] at hcm
        rcases List.mem_append.mp hcm with h2 | h2
        · exact (hinv e3 (by simp)).2 c h2
        · rw [List.mem_singleton.mp h2]
          exact goodM_closeEntry e (hinv e (by simp)).1 (hinv e (by simp)).2
      · exact hinv e4 (by simp [h])
    · rw [if_neg hc] at he2
      exact hinv e2 he2

theorem popPhase_good (l : Nat) (st : List BuildEntry)
    (hinv : ∀ e ∈ st, goodText e.text ∧ ∀ c ∈ e.children, goodM c) :
    ∀ e2 ∈ popPhase l st, goodText e2.text ∧ ∀ c ∈ e2.children, goodM c := by
  rcases st with _ | ⟨e, rest⟩
  · intro e2 he2
    cases he2
  · exact popGo_good l rest e hinv

theorem fold_insert_good (pls : List (Nat × ParsedLine)) :
    ∀ st : List BuildEntry,
      (∀ e ∈ st, goodText e.text ∧ ∀ c ∈ e.children, goodM c) →
      (∀ ip ∈ pls, goodText ip.2.text) →
      ∀ e ∈ pls.foldl (fun s ip => insertLine s ip.2 (ip.1 + 1)) st,
        goodText e.text ∧ ∀ c ∈ e.children, goodM c := by
  induction pls with
  | nil =>
    intro st hinv _ e he
    exact hinv e he
  | cons ip pls' ih =>
    intro st hinv hgood e he
    rw [List.foldl_cons] at he
    refine ih (insertLine st ip.2 (ip.1 + 1)) ?_ (fun ip2 h2 => hgood ip2 (by simp [h2])) e he
    intro e2 he2
    rcases List.mem_cons.mp he2 with h | h
    · rw [h]
      exact ⟨hgood ip (by simp), by intro c hc; cases hc⟩
    · exact popPhase_good ip.2.level st hinv e2 h

theorem chainClose_good (rest : List BuildEntry) :
    ∀ e : BuildEntry,
      (∀ e2 ∈ e :: rest, goodText e2.text ∧ ∀ c ∈ e2.children, goodM c) →
      goodM (chainClose e rest) := by
  induction rest with
  | nil =>
    intro e hinv
    exact goodM_closeEntry e (hinv e (by simp)).1 (hinv e (by simp)).2
  | cons e2 rest' ih =>
    intro e hinv
    rw [show chainClose e (e2 :: rest') =
      chainClose (addChild e2 (closeEntry e)) rest' from rfl]
    apply ih
    intro e3 he3
    rcases List.mem_cons.mp he3 with h | h
    · rw [h]
      refine ⟨(hinv e2 (by simp)).1, ?_⟩
      intro c hcm
      rw [addChild_children] at hcm
      rcases List.mem_append.mp hcm with h2 | h2
      · exact (hinv e2 (by simp)).2 c h2
      · rw [List.mem_singleton.mp h2]
        exact goodM_closeEntry e (hinv e (by simp)).1 (hinv e (by simp)).2
    · exact hinv e3 (by simp [h])

theorem goodM_parse (text : JStr) : goodM (parseTextToTree text) := by
  rcases hp : parsedLinesOf text with _ | ⟨p0, rest⟩
  · rw [parse_eq_empty text hp]
    apply goodM_mk
    · exact ⟨by decide, by decide, by decide⟩
    · intro c hc
      cases hc
  · rw [parse_eq_build text p0 rest hp]
    have hfold := fold_insert_good rest.enum [BuildEntry.mk 0 p0.text p0.level []]
      (by
        intro e he
        rcases List.mem_cons.mp he with h | h
        · rw [h]
          refine ⟨parsedLinesOf_good text p0 (by rw [hp]; simp), ?_⟩
          intro c hc
          cases hc
        · cases h)
      (by
        intro ip hip
        apply parsedLinesOf_good text
        rw [hp]
        exact List.mem_cons_of_mem _ (mem_enumFrom_snd rest 0 ip hip))
    rcases hst : rest.enum.foldl (fun s ip => insertLine s ip.2 (ip.1 + 1))
        [BuildEntry.mk 0 p0.text p0.level []] with _ | ⟨e, strest⟩
    · exact absurd hst (fold_insert_ne_nil _ _ (by simp))
    · rw [hst, show collapseStack (e :: strest) = chainClose e strest from rfl]
      apply chainClose_good
      rw [← hst]
      exact hfold

/-- C10: every node of a tree returned by `parseTextToTree` has text that is
non-empty, contains no line-break character, and carries no leading or
trailing whitespace (its own `trim` is the identity on it): each surviving
line contributes its trimmed content and blank lines never become nodes —
the invariant that makes the serialize/parse round trip possible. -/
theorem parse_text_invariant (text : JStr) :
    ∀ m ∈ allNodes (parseTextToTree text),
      m.text ≠ [] ∧ trim m.text = m.text ∧ '\n' ∉ m.text := by
  intro m hm
  exact goodM_parse text m hm

/-- Concrete instantiation of `parse_text_invariant` at the root node of a
small parse. -/
theorem parse_text_invariant_witness :
    (parseTextToTree ("  Root  \nx".data)).text ≠ [] ∧
    trim (parseTextToTree ("  Root  \nx".data)).text =
      (parseTextToTree ("  Root  \nx".data)).text ∧
    '\n' ∉ (parseTextToTree ("  Root  \nx".data)).text :=
  parse_text_invariant ("  Root  \nx".data) _ (self_mem_allNodes _)

/-! Claim C1: the serialize/parse round trip.  First, the serialization of a
good tree splits back into exactly its pre-order (text, level) line list. -/

theorem preTL_mk (t : JStr) (cs : List STree) (d : Nat) :
    preTL (STree.mk t cs) d = (t, d) :: preTLs cs (d + 1) := rfl

theorem preTLs_nil (d : Nat) : preTLs [] d = [] := rfl

theorem preTLs_cons (c : STree) (cs : List STree) (d : Nat) :
    preTLs (c :: cs) d = preTL c d ++ preTLs cs d := rfl

theorem stripIds_mk (i : Nat) (t : JStr) (cs : List MindmapNode) :
    stripIds (MindmapNode.mk i t cs) = STree.mk t (stripList cs) := rfl

theorem stripList_nil : stripList [] = [] := rfl

theorem stripList_cons (c : MindmapNode) (cs : List MindmapNode) :
    stripList (c :: cs) = stripIds c :: stripList cs := rfl

theorem lineTL_indent (lv : Nat) (t : JStr) (hg : goodText t) :
    lineTL (List.replicate (2 * lv) ' ' ++ t) = some (t, lv) := by
  unfold lineTL
  rw [trim_indent _ _ hg.2.1 hg.1, if_neg hg.1, leading_indent _ _ hg.2.1 hg.1]
  have h2 : 2 * lv / 2 = lv := by omega
  rw [h2]

theorem no_nl_indent (lv : Nat) (t : JStr) (hg : goodText t) :
    '\n' ∉ List.replicate (2 * lv) ' ' ++ t := by
  intro hmem
  rcases List.mem_append.mp hmem with h | h
  · have := List.eq_of_mem_replicate h
    cases this
  · exact hg.2.2 h

theorem serialize_list (cs2 : List MindmapNode) :
    ∀ (c : MindmapNode) (lv : Nat),
      (∀ c2 ∈ c :: cs2, ∀ lv2 : Nat, goodM c2 →
        (splitLines (ttChars c2 lv2)).filterMap lineTL = preTL (stripIds c2) lv2) →
      (∀ c2 ∈ c :: cs2, goodM c2) →
      (splitLines (ttList (c :: cs2) lv)).filterMap lineTL =
        preTLs (stripList (c :: cs2)) lv := by
  induction cs2 with
  | nil =>
    intro c lv hm hg
    rw [show ttList [c] lv = ttChars c lv from rfl, hm c (by simp) lv (hg c (by simp))]
    rw [stripList_cons, stripList_nil, preTLs_cons, preTLs_nil, List.append_nil]
  | cons c2 cs3 ih =>
    intro c lv hm hg
    rw [show ttList (c :: c2 :: cs3) lv =
      ttChars c lv ++ ('\n' :: ttList (c2 :: cs3) lv) from rfl]
    rw [splitLines_append, List.filterMap_append]
    rw [hm c (by simp) lv (hg c (by simp))]
    rw [ih c2 lv (fun c3 h3 lv3 hg3 => hm c3 (by simp at h3 ⊢; tauto) lv3 hg3)
      (fun c3 h3 => hg c3 (by simp at h3 ⊢; tauto))]
    simp only [stripList_cons, preTLs_cons]

theorem serialize_lines (n : MindmapNode) :
    ∀ lv : Nat, goodM n →
      (splitLines (ttChars n lv)).filterMap lineTL = preTL (stripIds n) lv := by
  induction n using mnInd with
  | step i t cs ihm =>
    intro lv hg
    have hgt : goodText t := goodM_head i t cs hg
    rcases cs with _ | ⟨c, cs'⟩
    · rw [show ttChars (MindmapNode.mk i t []) lv =
        List.replicate (2 * lv) ' ' ++ t from rfl]
      rw [splitLines_of_no_nl _ (no_nl_indent lv t hgt)]
      have hfm : List.filterMap lineTL [List.replicate (2 * lv) ' ' ++ t] = [(t, lv)] := by
        simp [lineTL_indent lv t hgt]
      rw [hfm, stripIds_mk, stripList_nil, preTL_mk, preTLs_nil]
    · rw [show ttChars (MindmapNode.mk i t (c :: cs')) lv =
        (List.replicate (2 * lv) ' ' ++ t) ++ ('\n' :: ttList (c :: cs') (lv + 1)) from rfl]
      rw [splitLines_append, List.filterMap_append]
      rw [splitLines_of_no_nl _ (no_nl_indent lv t hgt)]
      have hfm : List.filterMap lineTL [List.replicate (2 * lv) ' ' ++ t] = [(t, lv)] := by
        simp [lineTL_indent lv t hgt]
      rw [hfm]
      rw [serialize_list cs' c (lv + 1) (fun c2 h2 lv2 hg2 => ihm c2 h2 lv2 hg2)
        (goodM_children i t (c :: cs') hg)]
      rw [stripIds_mk, preTL_mk]
      rfl

/-! The stack machine consuming a pre-order line list leaves exactly the
rightmost spine of the tree open. -/

theorem spineL_eq (cs : List STree) : ∀ (c : STree) (d : Nat),
    spineL (c :: cs) d = spineStack ((c :: cs).getLast (by simp)) d := by
  induction cs with
  | nil =>
    intro c d
    rw [show spineL [c] d = spineStack c d from rfl]
    simp
  | cons c2 cs2 ih =>
    intro c d
    rw [show spineL (c :: c2 :: cs2) d = spineL (c2 :: cs2) d from rfl, ih c2 d]
    have hg : (c :: c2 :: cs2).getLast (by simp) = (c2 :: cs2).getLast (by simp) :=
      List.getLast_cons (by simp)
    rw [hg]

theorem popPhaseS_stop (l : Nat) (e : SEntry) (st : List SEntry) (h : e.level < l) :
    popPhaseS l (e :: st) = e :: st := by
  rcases st with _ | ⟨e2, rest⟩
  · exact popPhaseS_single l e
  · rw [popPhaseS_cons2, if_neg (by omega)]

theorem spop_spine (u : STree) : ∀ (d l : Nat) (e : SEntry) (st : List SEntry), l ≤ d →
    popPhaseS l (spineStack u d ++ e :: st) = popPhaseS l (addKidS e u :: st) := by
  induction u using stInd with
  | step t cs ihm =>
    intro d l e st hl
    rcases cs with _ | ⟨c, cs'⟩
    · rw [show spineStack (STree.mk t []) d = [SEntry.mk t d []] from rfl,
        List.singleton_append, popPhaseS_cons2, if_pos (by simpa using hl)]
      rfl
    · rw [show spineStack (STree.mk t (c :: cs')) d =
        spineL (c :: cs') (d + 1) ++ [SEntry.mk t d (List.dropLast (c :: cs'))] from rfl]
      rw [spineL_eq cs' c (d + 1), List.append_assoc, List.singleton_append]
      rw [ihm _ (List.getLast_mem _) (d + 1) l (SEntry.mk t d (List.dropLast (c :: cs')))
        (e :: st) (by omega)]
      rw [show addKidS (SEntry.mk t d (List.dropLast (c :: cs')))
          ((c :: cs').getLast (by simp)) = SEntry.mk t d (c :: cs') from by
        unfold addKidS
        simp [List.dropLast_append_getLast]]
      rw [popPhaseS_cons2, if_pos (by simpa using hl)]
      rfl

theorem collapseS_spine (u : STree) : ∀ (d : Nat) (e : SEntry) (st : List SEntry),
    collapseS (spineStack u d ++ e :: st) = collapseS (addKidS e u :: st) := by
  induction u using stInd with
  | step t cs ihm =>
    intro d e st
    rcases cs with _ | ⟨c, cs'⟩
    · rw [show spineStack (STree.mk t []) d = [SEntry.mk t d []] from rfl,
        List.singleton_append, collapseS_cons2]
      rfl
    · rw [show spineStack (STree.mk t (c :: cs')) d =
        spineL (c :: cs') (d + 1) ++ [SEntry.mk t d (List.dropLast (c :: cs'))] from rfl]
      rw [spineL_eq cs' c (d + 1), List.append_assoc, List.singleton_append]
      rw [ihm _ (List.getLast_mem _) (d + 1) (SEntry.mk t d (List.dropLast (c :: cs')))
        (e :: st)]
      rw [show addKidS (SEntry.mk t d (List.dropLast (c :: cs')))
          ((c :: cs').getLast (by simp)) = SEntry.mk t d (c :: cs') from by
        unfold addKidS
        simp [List.dropLast_append_getLast]]
      rw [collapseS_cons2]
      rfl

theorem runS_nil (st : List SEntry) : runS st [] = st := rfl

theorem runS_cons (st : List SEntry) (tl : JStr × Nat) (tls : List (JStr × Nat)) :
    runS st (tl :: tls) = runS (insertS st tl) tls := rfl

theorem runS_append (st : List SEntry) (a b : List (JStr × Nat)) :
    runS st (a ++ b) = runS (runS st a) b :=
  List.foldl_append _ _ _ _

theorem runS_children (cs2 : List STree) :
    ∀ c : STree,
      (∀ x ∈ c :: cs2, ∀ (d : Nat) (e : SEntry) (st : List SEntry), e.level < d →
        runS (e :: st) (preTL x d) = spineStack x d ++ e :: st) →
      ∀ (t : JStr) (d0 : Nat) (ks : List STree) (st : List SEntry) (d : Nat), d0 < d →
      runS (SEntry.mk t d0 ks :: st) (preTLs (c :: cs2) d) =
        spineStack ((c :: cs2).getLast (by simp)) d ++
          SEntry.mk t d0 (ks ++ List.dropLast (c :: cs2)) :: st := by
  induction cs2 with
  | nil =>
    intro c hP t d0 ks st d hd
    rw [preTLs_cons, preTLs_nil, List.append_nil]
    rw [hP c (by simp) d (SEntry.mk t d0 ks) st (by simpa using hd)]
    simp
  | cons c2 cs3 ih =>
    intro c hP t d0 ks st d hd
    rw [preTLs_cons, runS_append]
    rw [hP c (by simp) d (SEntry.mk t d0 ks) st (by simpa using hd)]
    rcases c2 with ⟨t2, cs2b⟩
    rw [preTLs_cons, preTL_mk, List.cons_append, runS_cons]
    rw [show insertS (spineStack c d ++ SEntry.mk t d0 ks :: st) (t2, d) =
      SEntry.mk t2 d [] :: popPhaseS d (spineStack c d ++ SEntry.mk t d0 ks :: st) from rfl]
    rw [spop_spine c d d (SEntry.mk t d0 ks) st (Nat.le_refl d)]
    rw [popPhaseS_stop d _ st (by simpa using hd)]
    have hih := ih (STree.mk t2 cs2b) (fun x hx => hP x (by simp at hx ⊢; tauto)) t d0
      (ks ++ [c]) st d hd
    rw [preTLs_cons, preTL_mk, List.cons_append, runS_cons] at hih
    rw [show insertS (SEntry.mk t d0 (ks ++ [c]) :: st) (t2, d) =
      SEntry.mk t2 d [] :: popPhaseS d (SEntry.mk t d0 (ks ++ [c]) :: st) from rfl] at hih
    rw [popPhaseS_stop d _ st (by simpa using hd)] at hih
    rw [show addKidS (SEntry.mk t d0 ks) c = SEntry.mk t d0 (ks ++ [c]) from rfl, hih]
    have hgl : (c :: STree.mk t2 cs2b :: cs3).getLast (by simp) =
        (STree.mk t2 cs2b :: cs3).getLast (by simp) := List.getLast_cons (by simp)
    rw [hgl]
    have hdl : List.dropLast (c :: STree.mk t2 cs2b :: cs3) =
        c :: List.dropLast (STree.mk t2 cs2b :: cs3) := rfl
    rw [hdl]
    rw [show ks ++ c :: List.dropLast (STree.mk t2 cs2b :: cs3) =
      (ks ++ [c]) ++ List.dropLast (STree.mk t2 cs2b :: cs3) from by simp]

theorem runS_preTL (u : STree) :
    ∀ (d : Nat) (e : SEntry) (st : List SEntry), e.level < d →
      runS (e :: st) (preTL u d) = spineStack u d ++ e :: st := by
  induction u using stInd with
  | step t cs ihm =>
    intro d e st hd
    rw [preTL_mk, runS_cons]
    rw [show insertS (e :: st) (t, d) = SEntry.mk t d [] :: popPhaseS d (e :: st) from rfl]
    rw [popPhaseS_stop d e st hd]
    rcases cs with _ | ⟨c, cs'⟩
    · rw [preTLs_nil, runS_nil]
      rfl
    · rw [runS_children cs' c (fun x hx => ihm x hx) t d [] (e :: st) (d + 1) (by omega)]
      rw [show spineStack (STree.mk t (c :: cs')) d =
        spineL (c :: cs') (d + 1) ++ [SEntry.mk t d (List.dropLast (c :: cs'))] from rfl]
      rw [spineL_eq cs' c (d + 1), List.append_assoc, List.singleton_append,
        List.nil_append]

theorem collapseS_runS (t : JStr) (cs : List STree) :
    collapseS (runS [SEntry.mk t 0 []] (preTLs cs 1)) = STree.mk t cs := by
  rcases cs with _ | ⟨c, cs'⟩
  · rw [preTLs_nil, runS_nil, collapseS_single]
    rfl
  · rw [runS_children cs' c (fun x hx => runS_preTL x) t 0 [] [] 1 (by omega)]
    rw [collapseS_spine ((c :: cs').getLast (by simp)) 1
      (SEntry.mk t 0 ([] ++ List.dropLast (c :: cs'))) []]
    rw [collapseS_single]
    rw [show closeS (addKidS (SEntry.mk t 0 ([] ++ List.dropLast (c :: cs')))
        ((c :: cs').getLast (by simp))) =
      STree.mk t (List.dropLast (c :: cs') ++ [(c :: cs').getLast (by simp)]) from rfl]
    rw [List.dropLast_append_getLast]

/-! Erasing identifiers commutes with the parse machinery. -/

theorem stripList_append (xs ys : List MindmapNode) :
    stripList (xs ++ ys) = stripList xs ++ stripList ys := by
  induction xs with
  | nil => rfl
  | cons a as ih =>
    rw [List.cons_append, stripList_cons, stripList_cons, ih, List.cons_append]

theorem stripIds_closeEntry (e : BuildEntry) : stripIds (closeEntry e) = closeS (stripE e) := rfl

theorem stripE_addChild (e : BuildEntry) (m : MindmapNode) :
    stripE (addChild e m) = addKidS (stripE e) (stripIds m) := by
  unfold stripE addChild addKidS
  simp only [stripList_append, stripList_cons, stripList_nil]

theorem popGo_comm (l : Nat) (st : List BuildEntry) :
    ∀ e : BuildEntry, popGoS l (stripE e) (st.map stripE) = (popGo l e st).map stripE := by
  induction st with
  | nil =>
    intro e
    rfl
  | cons e2 rest ih =>
    intro e
    rw [List.map_cons]
    rw [show popGoS l (stripE e) (stripE e2 :: rest.map stripE) =
      (if l ≤ (stripE e).level then
        popGoS l (addKidS (stripE e2) (closeS (stripE e))) (rest.map stripE)
       else stripE e :: stripE e2 :: rest.map stripE) from rfl]
    rw [show popGo l e (e2 :: rest) =
      (if l ≤ e.level then popGo l (addChild e2 (closeEntry e)) rest
       else e :: e2 :: rest) from rfl]
    by_cases hc : l ≤ e.level
    · rw [if_pos (show l ≤ (stripE e).level from hc), if_pos hc]
      rw [← stripIds_closeEntry, ← stripE_addChild, ih]
    · rw [if_neg (show ¬l ≤ (stripE e).level from hc), if_neg hc, List.map_cons,
        List.map_cons]

theorem popPhase_comm (l : Nat) (st : List BuildEntry) :
    popPhaseS l (st.map stripE) = (popPhase l st).map stripE := by
  rcases st with _ | ⟨e, rest⟩
  · rfl
  · rw [List.map_cons, show popPhaseS l (stripE e :: rest.map stripE) =
      popGoS l (stripE e) (rest.map stripE) from rfl]
    exact popGo_comm l rest e

theorem insertLine_comm (st : List BuildEntry) (pl : ParsedLine) (nid : Nat) :
    (insertLine st pl nid).map stripE = insertS (st.map stripE) (projPL pl) := by
  rw [insertLine, List.map_cons]
  rw [show insertS (st.map stripE) (projPL pl) =
    SEntry.mk pl.text pl.level [] :: popPhaseS pl.level (st.map stripE) from rfl]
  rw [popPhase_comm]
  rfl

theorem fold_comm (pls : List ParsedLine) :
    ∀ (n : Nat) (st : List BuildEntry),
      ((List.enumFrom n pls).foldl (fun s ip => insertLine s ip.2 (ip.1 + 1)) st).map stripE =
        runS (st.map stripE) (pls.map projPL) := by
  induction pls with
  | nil =>
    intro n st
    rfl
  | cons pl pls' ih =>
    intro n st
    rw [show List.enumFrom n (pl :: pls') = (n, pl) :: List.enumFrom (n + 1) pls' from rfl]
    rw [List.foldl_cons, List.map_cons, runS_cons]
    rw [ih (n + 1) (insertLine st pl (n + 1))]
    rw [insertLine_comm]

theorem chainClose_comm (rest : List BuildEntry) :
    ∀ e : BuildEntry, stripIds (chainClose e rest) = chainCloseS (stripE e) (rest.map stripE) := by
  induction rest with
  | nil =>
    intro e
    rfl
  | cons e2 rest' ih =>
    intro e
    rw [show chainClose e (e2 :: rest') = chainClose (addChild e2 (closeEntry e)) rest' from rfl]
    rw [List.map_cons]
    rw [show chainCloseS (stripE e) (stripE e2 :: rest'.map stripE) =
      chainCloseS (addKidS (stripE e2) (closeS (stripE e))) (rest'.map stripE) from rfl]
    rw [← stripIds_closeEntry, ← stripE_addChild, ih]

theorem collapseStack_comm (st : List BuildEntry) :
    stripIds (collapseStack st) = collapseS (st.map stripE) := by
  rcases st with _ | ⟨e, rest⟩
  · rfl
  · rw [List.map_cons, show collapseStack (e :: rest) = chainClose e rest from rfl,
      show collapseS (stripE e :: rest.map stripE) =
        chainCloseS (stripE e) (rest.map stripE) from rfl]
    exact chainClose_comm rest e

/-! The round trip itself. -/

theorem parse_tt_strip (n : MindmapNode) (hg : goodM n) :
    stripIds (parseTextToTree (treeToText n)) = stripIds n := by
  have hser := serialize_lines n 0 hg
  have hproj : (parsedLinesOf (treeToText n)).map projPL = preTL (stripIds n) 0 := by
    rw [projPL_parsedLinesOf]
    exact hser
  rcases hstrip : stripIds n with ⟨t0, cs0⟩
  rw [hstrip, preTL_mk] at hproj
  rcases hpl : parsedLinesOf (treeToText n) with _ | ⟨p0, rest⟩
  · rw [hpl] at hproj
    simp at hproj
  · rw [hpl, List.map_cons] at hproj
    have h0 : projPL p0 = (t0, 0) := (List.cons.injEq _ _ _ _).mp hproj |>.1
    have hrest : rest.map projPL = preTLs cs0 1 := (List.cons.injEq _ _ _ _).mp hproj |>.2
    have ht : p0.text = t0 := congrArg Prod.fst h0
    have hl : p0.level = 0 := congrArg Prod.snd h0
    rw [parse_eq_build _ p0 rest hpl]
    rw [show (rest.enum : List (Nat × ParsedLine)) = List.enumFrom 0 rest from rfl]
    rw [collapseStack_comm, fold_comm rest 0 [BuildEntry.mk 0 p0.text p0.level []]]
    rw [show ([BuildEntry.mk 0 p0.text p0.level []]).map stripE =
      [SEntry.mk p0.text p0.level []] from rfl]
    rw [ht, hl, hrest]
    exact collapseS_runS t0 cs0

/-- C1: round trip.  For every tree returned by `parseTextToTree`, parsing
its serialization `treeToText` yields a tree with the same shape (same arity
at every node, children in the same order) and the same per-node text; only
the identifiers may differ, which the identifier-erased comparison
`stripIds` makes precise. -/
theorem round_trip_parse_serialize (s : JStr) :
    stripIds (parseTextToTree (treeToText (parseTextToTree s))) =
      stripIds (parseTextToTree s) :=
  parse_tt_strip (parseTextToTree s) (goodM_parse s)
